import Mathlib

/-!
Verification of the `simsearch` fuzzy search engine (`src/lib.rs`).

The engine state (`SimSearch`) and its operations (`insert_tokens`, `delete`,
`search_tokens`, the tokenizer and the two similarity metrics) are embedded
shallowly.  Rust `HashMap`s are modelled as association lists with the
operations the code performs (`mlookup`, `minsert`, `merase`, ...), `f64`
scores and thresholds are modelled exactly as rationals, and every operation
that can panic in Rust (`expect`, `unwrap`, indexing) returns an `Option`,
`none` standing for the panic.
-/

unseal Rat.add Rat.sub Rat.mul Rat.inv

namespace Simsearch

/-! ### Association-list maps (model of `std::collections::HashMap`) -/

/-- Model of `HashMap::get`: value at the first occurrence of the key. -/
def mlookup {α β : Type} [DecidableEq α] (m : List (α × β)) (k : α) : Option β :=
  match m with
  | [] => none
  | (a, b) :: rest => if a = k then some b else mlookup rest k

/-- Model of `HashMap::insert`: replace the binding of the key, or append it. -/
def minsert {α β : Type} [DecidableEq α] (m : List (α × β)) (k : α) (v : β) :
    List (α × β) :=
  match m with
  | [] => [(k, v)]
  | (a, b) :: rest => if a = k then (k, v) :: rest else (a, b) :: minsert rest k v

/-- Model of `HashMap::remove`: drop every binding of the key. -/
def merase {α β : Type} [DecidableEq α] (m : List (α × β)) (k : α) : List (α × β) :=
  match m with
  | [] => []
  | (a, b) :: rest => if a = k then merase rest k else (a, b) :: merase rest k

/-- Model of `reverse_map.entry(token).or_insert_with(|| Vec::new()).push(id_num)`. -/
def pushBucket {α : Type} [DecidableEq α] (m : List (α × List Nat)) (k : α)
    (v : Nat) : List (α × List Nat) :=
  match m with
  | [] => [(k, [v])]
  | (a, b) :: rest =>
    if a = k then (a, b ++ [v]) :: rest else (a, b) :: pushBucket rest k v

/-- Model of `*result_scores.entry(id_num).or_insert(0.) += score`. -/
def addScore (rs : List (Nat × ℚ)) (n : Nat) (s : ℚ) : List (Nat × ℚ) :=
  match rs with
  | [] => [(n, 0 + s)]
  | (a, v) :: rest => if a = n then (a, v + s) :: rest else (a, v) :: addScore rest n s

/-- Keys of an association list all distinct. -/
def NodupKeys {α β : Type} (m : List (α × β)) : Prop := (m.map Prod.fst).Nodup

section MapLemmas

variable {α β : Type} [DecidableEq α]

theorem mlookup_minsert_self (m : List (α × β)) (k : α) (v : β) :
    mlookup (minsert m k v) k = some v := by
  induction m with
  | nil => simp [minsert, mlookup]
  | cons p rest ih =>
    obtain ⟨a, b⟩ := p
    by_cases h : a = k <;> simp [minsert, mlookup, h, ih]

theorem mlookup_minsert_ne (m : List (α × β)) (k k' : α) (v : β) (h : k ≠ k') :
    mlookup (minsert m k v) k' = mlookup m k' := by
  induction m with
  | nil => simp [minsert, mlookup, h]
  | cons p rest ih =>
    obtain ⟨a, b⟩ := p
    show mlookup (if a = k then (k, v) :: rest else (a, b) :: minsert rest k v) k' =
      mlookup ((a, b) :: rest) k'
    by_cases ha : a = k
    · rw [if_pos ha]
      show (if k = k' then some v else mlookup rest k') = mlookup ((a, b) :: rest) k'
      rw [if_neg h]
      show mlookup rest k' = if a = k' then some b else mlookup rest k'
      rw [if_neg (fun hh => h (ha ▸ hh))]
    · rw [if_neg ha]
      show (if a = k' then some b else mlookup (minsert rest k v) k') =
        if a = k' then some b else mlookup rest k'
      rw [ih]

theorem mlookup_merase_self (m : List (α × β)) (k : α) :
    mlookup (merase m k) k = none := by
  induction m with
  | nil => simp [merase, mlookup]
  | cons p rest ih =>
    obtain ⟨a, b⟩ := p
    by_cases h : a = k <;> simp [merase, mlookup, h, ih]

theorem mlookup_merase_ne (m : List (α × β)) (k k' : α) (h : k ≠ k') :
    mlookup (merase m k) k' = mlookup m k' := by
  induction m with
  | nil => simp [merase, mlookup]
  | cons p rest ih =>
    obtain ⟨a, b⟩ := p
    show mlookup (if a = k then merase rest k else (a, b) :: merase rest k) k' =
      mlookup ((a, b) :: rest) k'
    by_cases ha : a = k
    · rw [if_pos ha, ih]
      show mlookup rest k' = if a = k' then some b else mlookup rest k'
      rw [if_neg (fun hh => h (ha ▸ hh))]
    · rw [if_neg ha]
      show (if a = k' then some b else mlookup (merase rest k) k') =
        if a = k' then some b else mlookup rest k'
      rw [ih]

theorem mlookup_pushBucket_self (m : List (α × List Nat)) (k : α) (v : Nat) :
    mlookup (pushBucket m k v) k = some (((mlookup m k).getD []) ++ [v]) := by
  induction m with
  | nil => simp [pushBucket, mlookup]
  | cons p rest ih =>
    obtain ⟨a, b⟩ := p
    by_cases h : a = k <;> simp [pushBucket, mlookup, h, ih]

theorem mlookup_pushBucket_ne (m : List (α × List Nat)) (k k' : α) (v : Nat)
    (h : k ≠ k') : mlookup (pushBucket m k v) k' = mlookup m k' := by
  induction m with
  | nil => simp [pushBucket, mlookup, h]
  | cons p rest ih =>
    obtain ⟨a, b⟩ := p
    show mlookup (if a = k then (a, b ++ [v]) :: rest else (a, b) :: pushBucket rest k v) k' =
      mlookup ((a, b) :: rest) k'
    by_cases ha : a = k
    · rw [if_pos ha]
      show (if a = k' then some (b ++ [v]) else mlookup rest k') =
        if a = k' then some b else mlookup rest k'
      rw [if_neg (fun hh => h (ha ▸ hh)), if_neg (fun hh => h (ha ▸ hh))]
    · rw [if_neg ha]
      show (if a = k' then some b else mlookup (pushBucket rest k v) k') =
        if a = k' then some b else mlookup rest k'
      rw [ih]

theorem mlookup_addScore (rs : List (Nat × ℚ)) (n n' : Nat) (s : ℚ) :
    mlookup (addScore rs n s) n' =
      if n' = n then some (((mlookup rs n).getD 0) + s) else mlookup rs n' := by
  induction rs with
  | nil =>
    by_cases h : n' = n
    · simp [addScore, mlookup, h]
    · rw [if_neg h]
      show (if n = n' then some (0 + s) else none) = none
      rw [if_neg (fun hh : n = n' => h hh.symm)]
  | cons p rest ih =>
    obtain ⟨a, v⟩ := p
    show mlookup (if a = n then (a, v + s) :: rest else (a, v) :: addScore rest n s) n' =
      if n' = n then some ((mlookup ((a, v) :: rest) n).getD 0 + s)
      else mlookup ((a, v) :: rest) n'
    by_cases ha : a = n
    · rw [if_pos ha]
      by_cases h : n' = n
      · have han' : a = n' := ha.trans h.symm
        show (if a = n' then some (v + s) else mlookup rest n') = _
        rw [if_pos han', if_pos h]
        show some (v + s) = some ((if a = n then some v else mlookup rest n).getD 0 + s)
        rw [if_pos ha]
        rfl
      · have han' : ¬ a = n' := fun hh => h (hh.symm.trans ha)
        show (if a = n' then some (v + s) else mlookup rest n') = _
        rw [if_neg han', if_neg h]
        show mlookup rest n' = if a = n' then some v else mlookup rest n'
        rw [if_neg han']
    · rw [if_neg ha]
      show (if a = n' then some v else mlookup (addScore rest n s) n') = _
      by_cases h' : a = n'
      · have hn'n : ¬ n' = n := fun hc => ha (h'.trans hc)
        rw [if_pos h', if_neg hn'n]
        show some v = if a = n' then some v else mlookup rest n'
        rw [if_pos h']
      · rw [if_neg h', ih]
        by_cases h : n' = n
        · rw [if_pos h, if_pos h]
          show some ((mlookup rest n).getD 0 + s) =
            some ((if a = n then some v else mlookup rest n).getD 0 + s)
          rw [if_neg ha]
        · rw [if_neg h, if_neg h]
          show mlookup rest n' = if a = n' then some v else mlookup rest n'
          rw [if_neg h']

theorem mlookup_mem {m : List (α × β)} {k : α} {v : β}
    (h : mlookup m k = some v) : (k, v) ∈ m := by
  induction m with
  | nil => simp [mlookup] at h
  | cons p rest ih =>
    obtain ⟨a, b⟩ := p
    by_cases ha : a = k
    · subst ha
      simp [mlookup] at h
      simp [h]
    · simp [mlookup, ha] at h
      exact List.mem_cons_of_mem _ (ih h)

theorem mem_mlookup_of_nodup {m : List (α × β)} {k : α} {v : β}
    (hn : NodupKeys m) (h : (k, v) ∈ m) : mlookup m k = some v := by
  induction m with
  | nil => simp at h
  | cons p rest ih =>
    obtain ⟨a, b⟩ := p
    have hn' : a ∉ rest.map Prod.fst ∧ (rest.map Prod.fst).Nodup := by
      simpa [NodupKeys] using hn
    rcases List.mem_cons.1 h with h1 | h2
    · cases h1
      simp [mlookup]
    · have hak : ¬ a = k := by
        intro hak
        apply hn'.1
        rw [hak]
        exact List.mem_map_of_mem Prod.fst h2
      show (if a = k then some b else mlookup rest k) = some v
      rw [if_neg hak]
      exact ih hn'.2 h2

theorem mlookup_isSome_iff_mem_keys (m : List (α × β)) (k : α) :
    (mlookup m k).isSome ↔ k ∈ m.map Prod.fst := by
  induction m with
  | nil => simp [mlookup]
  | cons p rest ih =>
    obtain ⟨a, b⟩ := p
    by_cases h : a = k
    · simp [mlookup, h]
    · have hL : mlookup ((a, b) :: rest) k = mlookup rest k := by
        show (if a = k then some b else mlookup rest k) = mlookup rest k
        rw [if_neg h]
      rw [hL, List.map_cons]
      constructor
      · intro hs
        exact List.mem_cons_of_mem _ (ih.1 hs)
      · intro hm
        rcases List.mem_cons.1 hm with h1 | h2
        · exact absurd h1.symm h
        · exact ih.2 h2

theorem keys_minsert (m : List (α × β)) (k : α) (v : β) :
    (minsert m k v).map Prod.fst =
      if k ∈ m.map Prod.fst then m.map Prod.fst else m.map Prod.fst ++ [k] := by
  induction m with
  | nil => simp [minsert]
  | cons p rest ih =>
    obtain ⟨a, b⟩ := p
    by_cases ha : a = k
    · subst ha
      simp [minsert]
    · by_cases hk : k ∈ rest.map Prod.fst <;>
        simp [minsert, ha, Ne.symm ha, ih, hk]

theorem nodupKeys_minsert (m : List (α × β)) (k : α) (v : β)
    (h : NodupKeys m) : NodupKeys (minsert m k v) := by
  unfold NodupKeys at h ⊢
  rw [keys_minsert]
  by_cases hk : k ∈ m.map Prod.fst
  · simpa [hk] using h
  · simp only [hk, if_false]
    have hd : List.Disjoint (m.map Prod.fst) [k] := by
      intro x hx hxk
      simp only [List.mem_singleton] at hxk
      exact hk (hxk ▸ hx)
    exact List.nodup_append.2 ⟨h, List.nodup_singleton _, hd⟩

theorem keys_addScore (rs : List (Nat × ℚ)) (n : Nat) (s : ℚ) :
    (addScore rs n s).map Prod.fst =
      if n ∈ rs.map Prod.fst then rs.map Prod.fst else rs.map Prod.fst ++ [n] := by
  induction rs with
  | nil => simp [addScore]
  | cons p rest ih =>
    obtain ⟨a, v⟩ := p
    by_cases ha : a = n
    · subst ha
      simp [addScore]
    · by_cases hn : n ∈ rest.map Prod.fst <;>
        simp [addScore, ha, Ne.symm ha, ih, hn]

theorem nodupKeys_addScore (rs : List (Nat × ℚ)) (n : Nat) (s : ℚ)
    (h : NodupKeys rs) : NodupKeys (addScore rs n s) := by
  unfold NodupKeys at h ⊢
  rw [keys_addScore]
  by_cases hn : n ∈ rs.map Prod.fst
  · simpa [hn] using h
  · simp only [hn, if_false]
    have hd : List.Disjoint (rs.map Prod.fst) [n] := by
      intro x hx hxn
      simp only [List.mem_singleton] at hxn
      exact hn (hxn ▸ hx)
    exact List.nodup_append.2 ⟨h, List.nodup_singleton _, hd⟩

end MapLemmas


/-! ### Character/string helpers (structural, kernel-reducible)

The Rust code works with `String`/`&str`; the tokenizer lower-cases,
splits on whitespace and on stop-word substrings.  We implement these
over `String.data` so that everything reduces in the kernel.  Case
folding is modelled on the ASCII range (Rust's `to_lowercase` also
folds non-ASCII letters; no claim depends on that difference). -/

/-- ASCII case folding of one character, model of `char::to_lowercase` on ASCII. -/
def lowerChar (c : Char) : Char :=
  if 65 ≤ c.toNat ∧ c.toNat ≤ 90 then Char.ofNat (c.toNat + 32) else c

/-- Model of `str::to_lowercase`. -/
def toLowerStr (s : String) : String := String.mk (s.data.map lowerChar)

/-- Split a character list at whitespace characters; pieces may be empty
(the tokenizer's final `retain` drops empty tokens, so this agrees with
Rust's `split_whitespace` after that filter). -/
def splitWsAux : List Char → List Char → List (List Char)
  | acc, [] => [acc.reverse]
  | acc, c :: rest =>
    if c.isWhitespace then acc.reverse :: splitWsAux [] rest
    else splitWsAux (c :: acc) rest

/-- Model of splitting a string on whitespace. -/
def splitWhitespaceStr (s : String) : List String :=
  (splitWsAux [] s.data).map String.mk

/-- Split on a non-empty substring, with `fuel` bounding the recursion
(`fuel = length of the text` always suffices). -/
def splitSubGo (sw : List Char) : Nat → List Char → List Char → List (List Char)
  | _, acc, [] => [acc.reverse]
  | 0, acc, t => [acc.reverse ++ t]
  | fuel+1, acc, c :: rest =>
    if sw.isPrefixOf (c :: rest) then
      acc.reverse :: splitSubGo sw fuel [] (List.drop sw.length (c :: rest))
    else
      splitSubGo sw fuel (c :: acc) rest

/-- Model of `str::split_terminator(stop_word)`: this version may produce one
extra trailing empty piece, which the tokenizer's final `retain` drops. -/
def splitStopWord (t sw : String) : List String :=
  if sw.data = [] then t.data.map (fun c => String.mk [c])
  else (splitSubGo sw.data t.data.length [] t.data).map String.mk

/-- Byte-order comparison of characters (Rust `str` order = UTF-8 byte order
= code-point order). -/
def charListLt : List Char → List Char → Bool
  | [], [] => false
  | [], _ :: _ => true
  | _ :: _, [] => false
  | a :: as, b :: bs =>
    if a.val < b.val then true
    else if b.val < a.val then false
    else charListLt as bs

/-- Model of the `Ord` instance used by `Vec::<String>::sort`. -/
def strLt (a b : String) : Bool := charListLt a.data b.data

/-- One insertion step of a stable insertion sort. -/
def insertSorted (x : String) : List String → List String
  | [] => [x]
  | y :: ys => if strLt x y then x :: y :: ys else y :: insertSorted x ys

/-- Model of `Vec::<String>::sort()` (the exact algorithm is irrelevant:
only the membership and ordering of the result matter). -/
def sortStrings (l : List String) : List String := l.foldr insertSorted []

/-- Model of `Vec::dedup()`: remove adjacent duplicates. -/
def dedupAdj : List String → List String
  | [] => []
  | [x] => [x]
  | x :: y :: rest =>
    if x = y then dedupAdj (y :: rest) else x :: dedupAdj (y :: rest)

/-! ### UTF-8 bytes and Levenshtein distance -/

/-- UTF-8 encoding of one character (values as `Nat`). -/
def charUtf8 (c : Char) : List Nat :=
  let n := c.toNat
  if n < 128 then [n]
  else if n < 2048 then [192 + n / 64, 128 + n % 64]
  else if n < 65536 then [224 + n / 4096, 128 + n / 64 % 64, 128 + n % 64]
  else [240 + n / 262144, 128 + n / 4096 % 64, 128 + n / 64 % 64, 128 + n % 64]

/-- Model of `str::as_bytes`. -/
def utf8Bytes (s : String) : List Nat := (s.data.map charUtf8).flatten

/-- Model of `str::len` (byte length). -/
def utf8Len (s : String) : Nat := (utf8Bytes s).length

/-- Fuel-driven Levenshtein recursion (structural, hence kernel-reducible).
`levD fuel` agrees with the true distance whenever
`fuel ≥ xs.length + ys.length`. -/
def levD : Nat → List Nat → List Nat → Nat
  | _, [], ys => ys.length
  | _, x :: xs, [] => (x :: xs).length
  | 0, _ :: _, _ :: _ => 0
  | fuel+1, x :: xs, y :: ys =>
    if x = y then levD fuel xs ys
    else 1 + min (levD fuel xs (y :: ys)) (min (levD fuel (x :: xs) ys) (levD fuel xs ys))

/-- Modelled from the spec: the (unit-cost) Levenshtein edit distance computed
by the external `triple_accel` crate, over byte strings. -/
def levDist (a b : List Nat) : Nat := levD (a.length + b.length) a b

/-- Modelled from the spec: `triple_accel::levenshtein::levenshtein_simd_k`
returns the distance when it is at most the cutoff `k`, and `None` otherwise. -/
def levenshtein_simd_k (a b : List Nat) (k : Nat) : Option Nat :=
  let d := levDist a b
  if d ≤ k then some d else none

/-- Saturating cast of the cutoff to `u32` (model of `as u32` on an `f64`
that is the mathematical ceiling: negative values clamp to `0`, huge values
to `u32::MAX`). -/
def u32Sat (i : ℤ) : ℕ := min (max i 0).toNat 4294967295

/-- The exact value of `f64::MIN`, the score the code gives a pair rejected
by the bounded Levenshtein computation. -/
def f64MIN : ℚ := ((-(2 ^ 1024 - 2 ^ 971) : ℤ) : ℚ)

/-! ### Jaro-Winkler similarity

Modelled from the spec: the external `strsim::jaro_winkler` metric — the
classical Jaro similarity (greedy matching inside the usual search window,
transposition counting) with the Winkler common-prefix bonus. -/

/-- State of the Jaro matching loop: which characters of `b` are already
matched, the match count, transposition count, and the index in `b` of the
last match. -/
structure JaroState where
  consumed : List Bool
  matched : Nat
  transposed : Nat
  bIdx : Nat

/-- Find the first position `j` with `lo ≤ j ≤ hi` whose character equals `c`
and is not yet consumed. -/
def jaroFind (c : Char) (lo hi : Nat) : Nat → List (Char × Bool) → Option Nat
  | _, [] => none
  | j, (ch, used) :: rest =>
    if lo ≤ j ∧ j ≤ hi ∧ ch = c ∧ used = false then some j
    else jaroFind c lo hi (j + 1) rest

/-- Process one character of `a` (at index `i`) against `b`. -/
def jaroStep (b : List Char) (r : Nat) (s : JaroState) (i : Nat) (c : Char) :
    JaroState :=
  let lo := i - r
  let hi := min (b.length - 1) (i + r)
  match jaroFind c lo hi 0 (b.zip s.consumed) with
  | none => s
  | some j =>
    { consumed := s.consumed.set j true
      matched := s.matched + 1
      transposed := if j < s.bIdx then s.transposed + 1 else s.transposed
      bIdx := j }

/-- The matching loop over the characters of `a`. -/
def jaroLoop (b : List Char) (r : Nat) : Nat → JaroState → List Char → JaroState
  | _, s, [] => s
  | i, s, c :: cs => jaroLoop b r (i + 1) (jaroStep b r s i c) cs

/-- Modelled from the spec: the classical Jaro similarity over character
sequences. -/
def jaroSim (a b : List Char) : ℚ :=
  let la := a.length
  let lb := b.length
  if la = 0 ∧ lb = 0 then 1
  else if la = 0 ∨ lb = 0 then 0
  else
    let r := max la lb / 2 - 1
    let st := jaroLoop b r 0 ⟨List.replicate lb false, 0, 0, 0⟩ a
    if st.matched = 0 then 0
    else ((st.matched : ℚ) / la + (st.matched : ℚ) / lb +
      ((st.matched : ℚ) - st.transposed) / st.matched) / 3

/-- Length of the common leading run of two character sequences. -/
def commonLen : List Char → List Char → Nat
  | a :: as, b :: bs => if a = b then 1 + commonLen as bs else 0
  | _, _ => 0

/-- Modelled from the spec: `strsim::jaro_winkler`, the Jaro similarity with
the Winkler bonus for a common prefix of length up to 4. -/
def jaro_winkler (a b : String) : ℚ :=
  let j := jaroSim a.data b.data
  let l := min (commonLen a.data b.data) 4
  j + (l : ℚ) * (mkRat 1 10) * (1 - j)

/-! ### `SearchOptions` (src/lib.rs lines 329-424) -/

/-- Options and flags configuring the search engine.  `threshold` is the
`f64` field modelled exactly as a rational. -/
structure SearchOptions where
  case_sensitive : Bool
  stop_whitespace : Bool
  stop_words : List String
  threshold : ℚ
  levenshtein : Bool
deriving DecidableEq

/-- `SearchOptions::new`: the defaults (`0.8` is the rational `4/5`). -/
def SearchOptions.new : SearchOptions :=
  { case_sensitive := false
    stop_whitespace := true
    stop_words := []
    threshold := mkRat 4 5
    levenshtein := false }

/-- Builder `SearchOptions::case_sensitive`. -/
def SearchOptions.set_case_sensitive (o : SearchOptions) (b : Bool) :
    SearchOptions := { o with case_sensitive := b }

/-- Builder `SearchOptions::stop_whitespace`. -/
def SearchOptions.set_stop_whitespace (o : SearchOptions) (b : Bool) :
    SearchOptions := { o with stop_whitespace := b }

/-- Builder `SearchOptions::stop_words`. -/
def SearchOptions.set_stop_words (o : SearchOptions) (w : List String) :
    SearchOptions := { o with stop_words := w }

/-- Builder `SearchOptions::threshold` (src/lib.rs lines 404-406): the value
is stored as given, with no validation or clamping. -/
def SearchOptions.set_threshold (o : SearchOptions) (t : ℚ) :
    SearchOptions := { o with threshold := t }

/-- Builder `SearchOptions::levenshtein`. -/
def SearchOptions.set_levenshtein (o : SearchOptions) (b : Bool) :
    SearchOptions := { o with levenshtein := b }

/-! ### The engine state and operations (src/lib.rs lines 41-317) -/

/-- The simple search engine (struct `SimSearch<Id>`). -/
structure SimSearch (Id : Type) where
  option : SearchOptions
  id_num_counter : Nat
  ids_map : List (Id × Nat)
  reverse_ids_map : List (Nat × Id)
  forward_map : List (Nat × List String)
  reverse_map : List (String × List Nat)
deriving DecidableEq

variable {Id : Type} [DecidableEq Id]

/-- `SimSearch::new_with`. -/
def SimSearch.new_with (option : SearchOptions) : SimSearch Id :=
  { option := option
    id_num_counter := 0
    ids_map := []
    reverse_ids_map := []
    forward_map := []
    reverse_map := [] }

/-- `SimSearch::new`. -/
def SimSearch.new : SimSearch Id := SimSearch.new_with SearchOptions.new

/-- `SimSearch::tokenize` (src/lib.rs lines 283-316): case folding, optional
whitespace split, stop-word splits, and removal of empty tokens. -/
def tokenize (opt : SearchOptions) (tokens : List String) : List String :=
  let toks1 := tokens.map (fun t => if opt.case_sensitive then t else toLowerStr t)
  let toks2 :=
    if opt.stop_whitespace then (toks1.map splitWhitespaceStr).flatten else toks1
  let toks3 := opt.stop_words.foldl
    (fun ts sw => (ts.map (fun t => splitStopWord t sw)).flatten) toks2
  toks3.filter (fun t => t != "")

/-- The sorted, deduplicated token list an insert stores and a search
queries (`tokens.sort(); tokens.dedup();`). -/
def normTokens (opt : SearchOptions) (tokens : List String) : List String :=
  dedupAdj (sortStrings (tokenize opt tokens))

/-- Model of the loop body of `SimSearch::delete` (src/lib.rs lines 271-276):
`reverse_map.get_mut(token).unwrap().retain(|i| i != id_num)`; `none` is the
`unwrap` panic on a missing token key. -/
def removeFromBucket (m : List (String × List Nat)) (t : String) (id_num : Nat) :
    Option (List (String × List Nat)) :=
  match m with
  | [] => none
  | (a, b) :: rest =>
    if a = t then some ((a, b.filter (fun i => i != id_num)) :: rest)
    else
      match removeFromBucket rest t id_num with
      | none => none
      | some rest' => some ((a, b) :: rest')

/-- The delete loop over all tokens of the entry being removed. -/
def removeAll (m : List (String × List Nat)) (tokens : List String)
    (id_num : Nat) : Option (List (String × List Nat)) :=
  match tokens with
  | [] => some m
  | t :: rest =>
    match removeFromBucket m t id_num with
    | none => none
    | some m' => removeAll m' rest id_num

/-- `SimSearch::delete` (src/lib.rs lines 269-281).  `none` models a panic
(indexing `forward_map[&id_num]` or the `unwrap` on `reverse_map.get_mut`). -/
def SimSearch.delete (e : SimSearch Id) (id : Id) : Option (SimSearch Id) :=
  match mlookup e.ids_map id with
  | none => some e
  | some id_num =>
    match mlookup e.forward_map id_num with
    | none => none
    | some tokens =>
      match removeAll e.reverse_map tokens id_num with
      | none => none
      | some rm =>
        some { e with
          forward_map := merase e.forward_map id_num
          reverse_ids_map := merase e.reverse_ids_map id_num
          ids_map := merase e.ids_map id
          reverse_map := rm }

/-- `SimSearch::insert_tokens` (src/lib.rs lines 140-160): delete any
existing entry, allocate a fresh slot, store the normalized tokens in the
forward map and push the slot into the reverse-map bucket of each token. -/
def SimSearch.insert_tokens (e : SimSearch Id) (id : Id) (tokens : List String) :
    Option (SimSearch Id) :=
  match e.delete id with
  | none => none
  | some e1 =>
    let id_num := e1.id_num_counter
    let toks := normTokens e1.option tokens
    some { e1 with
      id_num_counter := e1.id_num_counter + 1
      ids_map := minsert e1.ids_map id id_num
      reverse_ids_map := minsert e1.reverse_ids_map id_num id
      forward_map := minsert e1.forward_map id_num toks
      reverse_map := toks.foldl (fun m t => pushBucket m t id_num) e1.reverse_map }

/-- `SimSearch::insert` (src/lib.rs lines 113-115). -/
def SimSearch.insert (e : SimSearch Id) (id : Id) (content : String) :
    Option (SimSearch Id) :=
  e.insert_tokens id [content]

/-- The distinct token vocabulary scanned by a search
(`self.reverse_map.keys()`). -/
def vocabKeys (e : SimSearch Id) : List String := e.reverse_map.map Prod.fst

/-- The score of one `(vocabulary token, query token)` pair
(src/lib.rs lines 222-234): bounded Levenshtein similarity with the
threshold-derived cutoff in Levenshtein mode, Jaro-Winkler otherwise. -/
def scoreOf (opt : SearchOptions) (token pattern_token : String) : ℚ :=
  if opt.levenshtein then
    let len : ℚ := ((max (utf8Len token) (utf8Len pattern_token) : ℕ) : ℚ)
    let k : ℕ := u32Sat ⌈(1 - opt.threshold) * len⌉
    match levenshtein_simd_k (utf8Bytes token) (utf8Bytes pattern_token) k with
    | some dist => 1 - (if len = 0 then 0 else (dist : ℚ) / len)
    | none => f64MIN
  else jaro_winkler token pattern_token

/-- The `token_scores` map built by `search_tokens` (src/lib.rs lines
218-240): for each (sorted, deduplicated) query token, every vocabulary
token scoring strictly above the threshold is inserted, overwriting any
earlier score for the same vocabulary token. -/
def searchTokenScores (e : SimSearch Id) (pattern_tokens : List String) :
    List (String × ℚ) :=
  (normTokens e.option pattern_tokens).foldl
    (fun ts p =>
      (vocabKeys e).foldl
        (fun ts token =>
          let score := scoreOf e.option token p
          if score > e.option.threshold then minsert ts token score else ts)
        ts)
    []

/-- The `result_scores` accumulation (src/lib.rs lines 242-248): each scored
token adds its score to every slot in its reverse-map bucket; `none` models
the panic of indexing `self.reverse_map[token]` on a missing key. -/
def accumScores (rev : List (String × List Nat)) :
    List (String × ℚ) → List (Nat × ℚ) → Option (List (Nat × ℚ))
  | [], rs => some rs
  | (token, score) :: rest, rs =>
    match mlookup rev token with
    | none => none
    | some bucket =>
      accumScores rev rest (bucket.foldl (fun acc n => addScore acc n score) rs)

/-- One insertion step of the descending-by-score sort. -/
def insertScoreDesc (x : Nat × ℚ) : List (Nat × ℚ) → List (Nat × ℚ)
  | [] => [x]
  | y :: ys => if y.2 < x.2 then y :: insertScoreDesc x ys else x :: y :: ys

/-- Model of `result_scores.sort_by(|lhs, rhs| rhs.1.partial_cmp(&lhs.1).unwrap())`:
sort by descending score (`ℚ` is totally ordered, so the `unwrap` cannot
fail; `f64` comparison of the scores actually produced never sees a NaN). -/
def sortScoresDesc (rs : List (Nat × ℚ)) : List (Nat × ℚ) :=
  rs.foldr insertScoreDesc []

/-- The final mapping of slots back to identifiers (src/lib.rs lines
253-263); `none` models the `expect("id at id_num should be there")` panic. -/
def lookupIds (rids : List (Nat × Id)) : List (Nat × ℚ) → Option (List Id)
  | [] => some []
  | (n, _) :: rest =>
    match mlookup rids n, lookupIds rids rest with
    | some id, some l => some (id :: l)
    | _, _ => none

/-- `SimSearch::search_tokens` (src/lib.rs lines 213-266). -/
def SimSearch.search_tokens (e : SimSearch Id) (pattern_tokens : List String) :
    Option (List Id) :=
  match accumScores e.reverse_map (searchTokenScores e pattern_tokens) [] with
  | none => none
  | some result_scores => lookupIds e.reverse_ids_map (sortScoresDesc result_scores)

/-- `SimSearch::search` (src/lib.rs lines 185-187). -/
def SimSearch.search (e : SimSearch Id) (pattern : String) : Option (List Id) :=
  e.search_tokens [pattern]

/-! ### Lemmas about sorting, dedup and the token pipeline -/

theorem mem_insertSorted (x a : String) (l : List String) :
    a ∈ insertSorted x l ↔ a = x ∨ a ∈ l := by
  induction l with
  | nil => simp [insertSorted]
  | cons y ys ih =>
    by_cases h : strLt x y
    · simp [insertSorted, h]
    · simp only [insertSorted, h, if_neg, Bool.false_eq_true, if_false,
        List.mem_cons, ih]
      tauto

theorem mem_sortStrings (a : String) (l : List String) :
    a ∈ sortStrings l ↔ a ∈ l := by
  induction l with
  | nil => simp [sortStrings]
  | cons x xs ih =>
    show a ∈ insertSorted x (sortStrings xs) ↔ a ∈ x :: xs
    rw [mem_insertSorted]
    simp [ih]

theorem insertSorted_ne_nil (x : String) (l : List String) :
    insertSorted x l ≠ [] := by
  cases l with
  | nil => simp [insertSorted]
  | cons y ys =>
    by_cases h : strLt x y <;> simp [insertSorted, h]

theorem sortStrings_ne_nil (l : List String) (h : l ≠ []) :
    sortStrings l ≠ [] := by
  cases l with
  | nil => exact absurd rfl h
  | cons x xs => exact insertSorted_ne_nil x (sortStrings xs)

theorem mem_dedupAdj (a : String) (l : List String) :
    a ∈ dedupAdj l ↔ a ∈ l := by
  induction l with
  | nil => simp [dedupAdj]
  | cons x xs ih =>
    cases xs with
    | nil => simp [dedupAdj]
    | cons y ys =>
      by_cases h : x = y
      · have hd : dedupAdj (x :: y :: ys) = dedupAdj (y :: ys) := by
          simp [dedupAdj, h]
        rw [hd, ih, h]
        simp [List.mem_cons]
      · have hd : dedupAdj (x :: y :: ys) = x :: dedupAdj (y :: ys) := by
          simp [dedupAdj, h]
        rw [hd]
        simp [ih]

theorem dedupAdj_ne_nil (l : List String) (h : l ≠ []) : dedupAdj l ≠ [] := by
  induction l with
  | nil => exact absurd rfl h
  | cons x xs ih =>
    cases xs with
    | nil => simp [dedupAdj]
    | cons y ys =>
      by_cases hxy : x = y
      · have hd : dedupAdj (x :: y :: ys) = dedupAdj (y :: ys) := by
          simp [dedupAdj, hxy]
        rw [hd]
        exact ih (by simp)
      · have hd : dedupAdj (x :: y :: ys) = x :: dedupAdj (y :: ys) := by
          simp [dedupAdj, hxy]
        rw [hd]
        simp

theorem mem_normTokens (opt : SearchOptions) (ts : List String) (a : String) :
    a ∈ normTokens opt ts ↔ a ∈ tokenize opt ts := by
  unfold normTokens
  rw [mem_dedupAdj, mem_sortStrings]

theorem normTokens_ne_nil (opt : SearchOptions) (ts : List String)
    (h : tokenize opt ts ≠ []) : normTokens opt ts ≠ [] :=
  dedupAdj_ne_nil _ (sortStrings_ne_nil _ h)

/-! ### Lemmas about the Levenshtein distance -/

theorem levD_nil_left (f : Nat) (ys : List Nat) : levD f [] ys = ys.length := by
  cases f <;> rfl

theorem levD_cons_nil (f : Nat) (x : Nat) (xs : List Nat) :
    levD f (x :: xs) [] = xs.length + 1 := by
  cases f <;> rfl

theorem levD_succ_cons_cons (f x y : Nat) (xs ys : List Nat) :
    levD (f + 1) (x :: xs) (y :: ys) =
      if x = y then levD f xs ys
      else 1 + min (levD f xs (y :: ys)) (min (levD f (x :: xs) ys) (levD f xs ys)) :=
  rfl

theorem levD_irrel (f : Nat) : ∀ (g : Nat) (a b : List Nat),
    a.length + b.length ≤ f → a.length + b.length ≤ g → levD f a b = levD g a b := by
  induction f with
  | zero =>
    intro g a b hf _
    cases a with
    | nil => rw [levD_nil_left, levD_nil_left]
    | cons x xs => simp at hf
  | succ f ih =>
    intro g a b hf hg
    cases a with
    | nil => rw [levD_nil_left, levD_nil_left]
    | cons x xs =>
      cases b with
      | nil => rw [levD_cons_nil, levD_cons_nil]
      | cons y ys =>
        cases g with
        | zero => simp at hg
        | succ g =>
          rw [levD_succ_cons_cons, levD_succ_cons_cons]
          have h1 : xs.length + ys.length ≤ f ∧ xs.length + ys.length ≤ g := by
            simp [List.length_cons] at hf hg
            omega
          have h2 : xs.length + (y :: ys).length ≤ f ∧
              xs.length + (y :: ys).length ≤ g := by
            simp [List.length_cons] at hf hg ⊢
            omega
          have h3 : (x :: xs).length + ys.length ≤ f ∧
              (x :: xs).length + ys.length ≤ g := by
            simp [List.length_cons] at hf hg ⊢
            omega
          rw [ih g xs ys h1.1 h1.2, ih g xs (y :: ys) h2.1 h2.2,
            ih g (x :: xs) ys h3.1 h3.2]

theorem levDist_cons_cons (x y : Nat) (xs ys : List Nat) :
    levDist (x :: xs) (y :: ys) =
      if x = y then levDist xs ys
      else 1 + min (levDist xs (y :: ys))
        (min (levDist (x :: xs) ys) (levDist xs ys)) := by
  unfold levDist
  have hL : (x :: xs).length + (y :: ys).length = (xs.length + ys.length + 1) + 1 := by
    simp [List.length_cons]
    omega
  rw [hL, levD_succ_cons_cons]
  have e1 : levD (xs.length + ys.length + 1) xs ys = levD (xs.length + ys.length) xs ys :=
    levD_irrel _ _ xs ys (by omega) (by omega)
  have e2 : levD (xs.length + ys.length + 1) xs (y :: ys) =
      levD (xs.length + (y :: ys).length) xs (y :: ys) :=
    levD_irrel _ _ xs (y :: ys) (by simp [List.length_cons]; omega)
      (by simp [List.length_cons])
  have e3 : levD (xs.length + ys.length + 1) (x :: xs) ys =
      levD ((x :: xs).length + ys.length) (x :: xs) ys :=
    levD_irrel _ _ (x :: xs) ys (by simp [List.length_cons]; omega)
      (by simp [List.length_cons])
  rw [e1, e2, e3]

theorem levDist_self (l : List Nat) : levDist l l = 0 := by
  induction l with
  | nil => rfl
  | cons x xs ih =>
    rw [levDist_cons_cons]
    simp [ih]

theorem levDist_le_max_aux : ∀ (n : Nat) (a b : List Nat),
    a.length + b.length ≤ n → levDist a b ≤ max a.length b.length := by
  intro n
  induction n with
  | zero =>
    intro a b h
    cases a with
    | nil =>
      unfold levDist
      rw [levD_nil_left]
      simp
    | cons x xs => simp at h
  | succ n ih =>
    intro a b h
    cases a with
    | nil =>
      unfold levDist
      rw [levD_nil_left]
      simp
    | cons x xs =>
      cases b with
      | nil =>
        unfold levDist
        rw [levD_cons_nil]
        simp [List.length_cons]
          
      | cons y ys =>
        rw [levDist_cons_cons]
        have hlen : xs.length + ys.length ≤ n := by
          simp [List.length_cons] at h
          omega
        by_cases hxy : x = y
        · rw [if_pos hxy]
          have := ih xs ys hlen
          simp [List.length_cons]
          omega
        · rw [if_neg hxy]
          have hmin : min (levDist xs (y :: ys))
              (min (levDist (x :: xs) ys) (levDist xs ys)) ≤ levDist xs ys :=
            le_trans (min_le_right _ _) (min_le_right _ _)
          have := ih xs ys hlen
          simp [List.length_cons]
          omega

theorem levDist_le_max (a b : List Nat) :
    levDist a b ≤ max a.length b.length :=
  levDist_le_max_aux (a.length + b.length) a b le_rfl

/-! ### Jaro-Winkler self-similarity -/

theorem zip_append_cons_aux : ∀ (pre : List Char) (flags : List Bool)
    (c : Char) (suf : List Char) (l : List Bool),
    pre.length = flags.length →
    List.zip (pre ++ c :: suf) (flags ++ false :: l) =
      List.zip pre flags ++ (c, false) :: List.zip suf l := by
  intro pre
  induction pre with
  | nil =>
    intro flags c suf l h
    have : flags = [] := by
      cases flags with
      | nil => rfl
      | cons f fs => simp at h
    subst this
    rfl
  | cons p ps ih =>
    intro flags c suf l h
    cases flags with
    | nil => simp at h
    | cons f fs =>
      have hlen : ps.length = fs.length := by
        simp [List.length_cons] at h
        omega
      simp only [List.cons_append, List.zip_cons_cons]
      rw [ih fs c suf l hlen]

theorem snd_mem_zip_replicate_true : ∀ (pre : List Char) (n : Nat)
    (p : Char × Bool), p ∈ List.zip pre (List.replicate n true) → p.2 = true := by
  intro pre
  induction pre with
  | nil =>
    intro n p hp
    simp [List.zip] at hp
  | cons c cs ih =>
    intro n p hp
    cases n with
    | zero => simp [List.zip] at hp
    | succ n =>
      rw [List.replicate_succ, List.zip_cons_cons] at hp
      rcases List.mem_cons.1 hp with h1 | h2
      · rw [h1]
      · exact ih n p h2

theorem jaroFind_padded : ∀ (l1 : List (Char × Bool)) (c : Char) (lo hi j : Nat)
    (l2 : List (Char × Bool)),
    (∀ p ∈ l1, p.2 = true) → lo ≤ j + l1.length → j + l1.length ≤ hi →
    jaroFind c lo hi j (l1 ++ (c, false) :: l2) = some (j + l1.length) := by
  intro l1
  induction l1 with
  | nil =>
    intro c lo hi j l2 _ hlo hhi
    simp only [List.length_nil, Nat.add_zero] at hlo hhi
    show jaroFind c lo hi j ((c, false) :: l2) = some j
    show (if lo ≤ j ∧ j ≤ hi ∧ c = c ∧ false = false then some j
      else jaroFind c lo hi (j + 1) l2) = some j
    rw [if_pos ⟨hlo, hhi, rfl, rfl⟩]
  | cons p ps ih =>
    intro c lo hi j l2 hall hlo hhi
    obtain ⟨ch, used⟩ := p
    have hused : used = true := hall (ch, used) (List.mem_cons_self _ _)
    show (if lo ≤ j ∧ j ≤ hi ∧ ch = c ∧ used = false then some j
      else jaroFind c lo hi (j + 1) (ps ++ (c, false) :: l2)) =
      some (j + (ps.length + 1))
    have hcond : ¬ (lo ≤ j ∧ j ≤ hi ∧ ch = c ∧ used = false) := by
      intro hc
      rw [hused] at hc
      simp at hc
    rw [if_neg hcond]
    have := ih c lo hi (j + 1) l2 (fun q hq => hall q (List.mem_cons_of_mem _ hq))
      (by simp [List.length_cons] at hlo ⊢; omega)
      (by simp [List.length_cons] at hhi ⊢; omega)
    rw [this]
    congr 1
    omega

theorem set_replicate_step (l : List Bool) : ∀ (i : Nat),
    (List.replicate i true ++ false :: l).set i true =
      List.replicate (i + 1) true ++ l := by
  intro i
  induction i with
  | zero => simp
  | succ i ih =>
    rw [List.replicate_succ, List.cons_append, List.set_cons_succ, ih]
    rw [show i + 1 + 1 = (i + 1) + 1 from rfl, List.replicate_succ (n := i + 1)]
    simp

theorem jaroLoop_self : ∀ (suf pre x : List Char) (r : Nat), pre ++ suf = x →
    jaroLoop x r pre.length
      ⟨List.replicate pre.length true ++ List.replicate suf.length false,
        pre.length, 0, pre.length - 1⟩ suf =
      ⟨List.replicate x.length true, x.length, 0, x.length - 1⟩ := by
  intro suf
  induction suf with
  | nil =>
    intro pre x r hx
    rw [List.append_nil] at hx
    subst hx
    show (⟨List.replicate pre.length true ++ List.replicate 0 false,
      pre.length, 0, pre.length - 1⟩ : JaroState) = _
    simp
  | cons c suf' ih =>
    intro pre x r hx
    have hxlen : x.length = pre.length + suf'.length + 1 := by
      rw [← hx]
      simp [List.length_append, List.length_cons]
      omega
    show jaroLoop x r (pre.length + 1)
      (jaroStep x r ⟨List.replicate pre.length true ++
        List.replicate (c :: suf').length false, pre.length, 0, pre.length - 1⟩
        pre.length c) suf' = _
    have hcons : List.replicate (c :: suf').length false =
        (false :: List.replicate suf'.length false : List Bool) := by
      simp [List.length_cons, List.replicate_succ]
    have hzip : x.zip (List.replicate pre.length true ++
        List.replicate (c :: suf').length false) =
        List.zip pre (List.replicate pre.length true) ++
          (c, false) :: List.zip suf' (List.replicate suf'.length false) := by
      rw [hcons, ← hx]
      exact zip_append_cons_aux pre (List.replicate pre.length true) c suf'
        (List.replicate suf'.length false) (by simp)
    have hl1 : (List.zip pre (List.replicate pre.length true)).length = pre.length := by
      simp
    have hfind : jaroFind c (pre.length - r) (min (x.length - 1) (pre.length + r)) 0
        (x.zip (List.replicate pre.length true ++
          List.replicate (c :: suf').length false)) = some pre.length := by
      rw [hzip]
      have := jaroFind_padded (List.zip pre (List.replicate pre.length true)) c
        (pre.length - r) (min (x.length - 1) (pre.length + r)) 0
        (List.zip suf' (List.replicate suf'.length false))
        (fun p hp => snd_mem_zip_replicate_true pre pre.length p hp)
        (by rw [hl1]; omega)
        (by
          rw [hl1]
          simp only [Nat.zero_add]
          exact le_min (by omega) (by omega))
      rw [hl1] at this
      simpa using this
    have hstep : jaroStep x r ⟨List.replicate pre.length true ++
        List.replicate (c :: suf').length false, pre.length, 0, pre.length - 1⟩
        pre.length c =
        ⟨List.replicate (pre.length + 1) true ++ List.replicate suf'.length false,
          pre.length + 1, 0, pre.length⟩ := by
      unfold jaroStep
      dsimp only
      rw [hfind]
      dsimp only
      have hset : (List.replicate pre.length true ++
          List.replicate (c :: suf').length false).set pre.length true =
          List.replicate (pre.length + 1) true ++ List.replicate suf'.length false := by
        rw [hcons]
        exact set_replicate_step (List.replicate suf'.length false) pre.length
      have htr : ¬ pre.length < pre.length - 1 := by omega
      rw [hset]
      simp [htr]
    rw [hstep]
    have happ : (pre ++ [c]) ++ suf' = x := by
      rw [← hx]
      simp
    have := ih (pre ++ [c]) x r happ
    have hlen' : (pre ++ [c]).length = pre.length + 1 := by simp
    rw [hlen'] at this
    simpa using this

theorem jaroSim_self (a : List Char) : jaroSim a a = 1 := by
  cases a with
  | nil => rfl
  | cons c cs =>
    have hne : (c :: cs).length ≠ 0 := by simp
    unfold jaroSim
    rw [if_neg (by simp), if_neg (by simp)]
    dsimp only
    have hinit := jaroLoop_self (c :: cs) [] (c :: cs)
      (max (c :: cs).length (c :: cs).length / 2 - 1) rfl
    simp only [List.length_nil, List.replicate_zero, List.nil_append,
      Nat.zero_sub] at hinit
    rw [hinit]
    rw [if_neg hne]
    have hq : ((c :: cs).length : ℚ) ≠ 0 := by
      exact_mod_cast hne
    dsimp only
    rw [Nat.cast_zero, sub_zero, div_self hq]
    norm_num

theorem jaro_winkler_self (s : String) : jaro_winkler s s = 1 := by
  unfold jaro_winkler
  rw [jaroSim_self]
  ring

theorem scoreOf_self (opt : SearchOptions) (t : String) : scoreOf opt t t = 1 := by
  unfold scoreOf
  by_cases hl : opt.levenshtein
  · simp [if_pos hl, levenshtein_simd_k, levDist_self]
  · rw [if_neg hl]
    exact jaro_winkler_self t

/-! ### Lemmas about the reverse-map updates of insert and delete -/

theorem mlookup_foldPush_not_mem (toks : List String)
    (m : List (String × List Nat)) (n : Nat) (t : String) (h : t ∉ toks) :
    mlookup (toks.foldl (fun m t => pushBucket m t n) m) t = mlookup m t := by
  induction toks generalizing m with
  | nil => rfl
  | cons s rest ih =>
    have hts : t ≠ s := fun hh => h (hh ▸ List.mem_cons_self s rest)
    rw [List.foldl_cons, ih (pushBucket m s n) (fun hr => h (List.mem_cons_of_mem _ hr)),
      mlookup_pushBucket_ne _ _ _ _ (Ne.symm hts)]

theorem mlookup_foldPush_mem (toks : List String)
    (m : List (String × List Nat)) (n : Nat) (t : String) (h : t ∈ toks) :
    ∃ b, mlookup (toks.foldl (fun m t => pushBucket m t n) m) t = some b ∧ n ∈ b := by
  induction toks generalizing m with
  | nil => simp at h
  | cons s rest ih =>
    rw [List.foldl_cons]
    by_cases hr : t ∈ rest
    · exact ih (pushBucket m s n) hr
    · have hts : t = s := by
        rcases List.mem_cons.1 h with h1 | h2
        · exact h1
        · exact absurd h2 hr
      subst hts
      rw [mlookup_foldPush_not_mem rest _ n t hr, mlookup_pushBucket_self]
      exact ⟨_, rfl, by simp⟩

theorem mlookup_foldPush_some (toks : List String)
    (m : List (String × List Nat)) (n : Nat) (t : String) (b : List Nat)
    (h : mlookup (toks.foldl (fun m t => pushBucket m t n) m) t = some b) :
    ∀ x ∈ b, (∃ b0, mlookup m t = some b0 ∧ x ∈ b0) ∨ (x = n ∧ t ∈ toks) := by
  induction toks generalizing m b with
  | nil =>
    intro x hx
    exact Or.inl ⟨b, h, hx⟩
  | cons s rest ih =>
    rw [List.foldl_cons] at h
    intro x hx
    rcases ih (pushBucket m s n) b h x hx with hold | hnew
    · obtain ⟨b0, hb0, hxb0⟩ := hold
      by_cases hts : t = s
      · subst hts
        rw [mlookup_pushBucket_self] at hb0
        have hb0' : b0 = ((mlookup m t).getD []) ++ [n] := by
          injection hb0 with hh
          exact hh.symm
        subst hb0'
        rcases List.mem_append.1 hxb0 with hL | hR
        · cases hml : mlookup m t with
          | none => rw [hml] at hL; simp at hL
          | some b1 =>
            rw [hml] at hL
            exact Or.inl ⟨b1, rfl, hL⟩
        · simp at hR
          exact Or.inr ⟨hR, List.mem_cons_self _ _⟩
      · rw [mlookup_pushBucket_ne _ _ _ _ (fun hh => hts hh.symm)] at hb0
        exact Or.inl ⟨b0, hb0, hxb0⟩
    · exact Or.inr ⟨hnew.1, List.mem_cons_of_mem _ hnew.2⟩

theorem mlookup_foldPush_old (toks : List String)
    (m : List (String × List Nat)) (n : Nat) (t : String) (b0 : List Nat)
    (h : mlookup m t = some b0) :
    ∃ b, mlookup (toks.foldl (fun m t => pushBucket m t n) m) t = some b ∧
      ∀ x ∈ b0, x ∈ b := by
  induction toks generalizing m b0 with
  | nil => exact ⟨b0, h, fun x hx => hx⟩
  | cons s rest ih =>
    rw [List.foldl_cons]
    by_cases hts : t = s
    · subst hts
      have h1 : mlookup (pushBucket m t n) t = some (b0 ++ [n]) := by
        rw [mlookup_pushBucket_self, h]
        rfl
      obtain ⟨b, hb, hsub⟩ := ih (pushBucket m t n) (b0 ++ [n]) h1
      exact ⟨b, hb, fun x hx => hsub x (List.mem_append_left _ hx)⟩
    · have h1 : mlookup (pushBucket m s n) t = some b0 := by
        rw [mlookup_pushBucket_ne _ _ _ _ (fun hh => hts hh.symm)]
        exact h
      exact ih (pushBucket m s n) b0 h1

theorem removeFromBucket_total (m : List (String × List Nat)) (t : String)
    (n : Nat) (h : (mlookup m t).isSome) :
    ∃ m', removeFromBucket m t n = some m' := by
  induction m with
  | nil => simp [mlookup] at h
  | cons p rest ih =>
    obtain ⟨a, b⟩ := p
    by_cases ha : a = t
    · refine ⟨(a, b.filter (fun i => i != n)) :: rest, ?_⟩
      simp [removeFromBucket, ha]
    · have hrest : (mlookup rest t).isSome := by
        have : mlookup ((a, b) :: rest) t = mlookup rest t := by
          show (if a = t then some b else mlookup rest t) = mlookup rest t
          rw [if_neg ha]
        rw [this] at h
        exact h
      obtain ⟨m', hm'⟩ := ih hrest
      exact ⟨(a, b) :: m', by simp [removeFromBucket, ha, hm']⟩

theorem removeFromBucket_spec (m : List (String × List Nat)) (t : String)
    (n : Nat) (m' : List (String × List Nat))
    (h : removeFromBucket m t n = some m') :
    ∀ t', mlookup m' t' =
      if t' = t then (mlookup m t).map (fun b => b.filter (fun i => i != n))
      else mlookup m t' := by
  induction m generalizing m' with
  | nil => simp [removeFromBucket] at h
  | cons p rest ih =>
    obtain ⟨a, b⟩ := p
    by_cases ha : a = t
    · have hm' : m' = (a, b.filter (fun i => i != n)) :: rest := by
        rw [show removeFromBucket ((a, b) :: rest) t n =
          some ((a, b.filter (fun i => i != n)) :: rest) from by
            simp [removeFromBucket, ha]] at h
        injection h with hh
        exact hh.symm
      subst hm'
      intro t'
      by_cases ht' : t' = t
      · show (if a = t' then some (b.filter (fun i => i != n)) else mlookup rest t') = _
        rw [if_pos (ha.trans ht'.symm), if_pos ht']
        have hmt : mlookup ((a, b) :: rest) t = some b := by
          show (if a = t then some b else mlookup rest t) = some b
          rw [if_pos ha]
        rw [hmt]
        rfl
      · have hat' : ¬ a = t' := fun hh => ht' (hh.symm.trans ha)
        show (if a = t' then some (b.filter (fun i => i != n)) else mlookup rest t') = _
        rw [if_neg hat', if_neg ht']
        show mlookup rest t' = if a = t' then some b else mlookup rest t'
        rw [if_neg hat']
    · have hstep : removeFromBucket ((a, b) :: rest) t n =
          match removeFromBucket rest t n with
          | none => none
          | some rest' => some ((a, b) :: rest') := by
        simp [removeFromBucket, ha]
      rw [hstep] at h
      cases hr : removeFromBucket rest t n with
      | none => rw [hr] at h; simp at h
      | some rest' =>
        rw [hr] at h
        have hm' : m' = (a, b) :: rest' := by
          injection h with hh
          exact hh.symm
        subst hm'
        intro t'
        have hrec := ih rest' hr t'
        by_cases ht' : t' = t
        · have hat' : ¬ a = t' := fun hh => ha (hh.trans ht')
          show (if a = t' then some b else mlookup rest' t') = _
          rw [if_neg hat', if_pos ht', hrec, if_pos ht']
          show (mlookup rest t).map _ = (mlookup ((a, b) :: rest) t).map _
          have : mlookup ((a, b) :: rest) t = mlookup rest t := by
            show (if a = t then some b else mlookup rest t) = mlookup rest t
            rw [if_neg ha]
          rw [this]
        · show (if a = t' then some b else mlookup rest' t') =
            if t' = t then _ else (if a = t' then some b else mlookup rest t')
          rw [if_neg ht']
          by_cases hat' : a = t'
          · rw [if_pos hat', if_pos hat']
          · rw [if_neg hat', if_neg hat', hrec, if_neg ht']

theorem removeAll_spec : ∀ (tokens : List String)
    (m m' : List (String × List Nat)) (n : Nat),
    removeAll m tokens n = some m' →
    ∀ t', mlookup m' t' =
      if t' ∈ tokens then (mlookup m t').map (fun b => b.filter (fun i => i != n))
      else mlookup m t' := by
  intro tokens
  induction tokens with
  | nil =>
    intro m m' n h t'
    simp only [removeAll] at h
    injection h with hh
    subst hh
    simp
  | cons t rest ih =>
    intro m m' n h t'
    have hstep : removeAll m (t :: rest) n =
        match removeFromBucket m t n with
        | none => none
        | some m1 => removeAll m1 rest n := rfl
    rw [hstep] at h
    cases hr : removeFromBucket m t n with
    | none => rw [hr] at h; simp at h
    | some m1 =>
      rw [hr] at h
      have h1 := removeFromBucket_spec m t n m1 hr t'
      have h2 := ih m1 m' n h t'
      by_cases ht : t' = t
      · subst ht
        rw [if_pos (List.mem_cons_self _ _), h2, h1, if_pos rfl]
        by_cases htr : t' ∈ rest
        · rw [if_pos htr]
          cases hml : mlookup m t' with
          | none => rfl
          | some b =>
            show some ((b.filter _).filter _) = some (b.filter _)
            rw [List.filter_filter]
            simp
        · rw [if_neg htr]
      · rw [h2, h1, if_neg ht]
        by_cases htr : t' ∈ rest
        · rw [if_pos htr, if_pos (List.mem_cons_of_mem _ htr)]
        · rw [if_neg htr, if_neg (by
            intro hmem
            rcases List.mem_cons.1 hmem with h1' | h2'
            · exact ht h1'
            · exact htr h2')]

theorem removeAll_total : ∀ (tokens : List String)
    (m : List (String × List Nat)) (n : Nat),
    (∀ t ∈ tokens, (mlookup m t).isSome) →
    ∃ m', removeAll m tokens n = some m' := by
  intro tokens
  induction tokens with
  | nil => intro m n _; exact ⟨m, rfl⟩
  | cons t rest ih =>
    intro m n hall
    obtain ⟨m1, hm1⟩ := removeFromBucket_total m t n (hall t (List.mem_cons_self _ _))
    have hrest : ∀ s ∈ rest, (mlookup m1 s).isSome := by
      intro s hs
      have hspec := removeFromBucket_spec m t n m1 hm1 s
      rw [hspec]
      by_cases hst : s = t
      · rw [if_pos hst]
        have hsome := hall t (List.mem_cons_self _ _)
        cases hml : mlookup m t with
        | none => rw [hml] at hsome; simp at hsome
        | some b => simp
      · rw [if_neg hst]
        exact hall s (List.mem_cons_of_mem _ hs)
    obtain ⟨m', hm'⟩ := ih m1 n hrest
    refine ⟨m', ?_⟩
    show (match removeFromBucket m t n with
      | none => none
      | some m1 => removeAll m1 rest n) = some m'
    rw [hm1]
    exact hm'

/-! ### The engine invariants -/

/-- The consistency invariant of the engine: the identifier maps form a
bijection, the forward map's slots are exactly the live slots, forward and
reverse token maps point at each other, and every live slot is below the
counter. -/
structure Inv (e : SimSearch Id) : Prop where
  bij : ∀ (id : Id) (n : Nat),
    mlookup e.ids_map id = some n ↔ mlookup e.reverse_ids_map n = some id
  dom : ∀ n : Nat,
    (mlookup e.forward_map n).isSome ↔ (mlookup e.reverse_ids_map n).isSome
  fwdRev : ∀ (n : Nat) (toks : List String), mlookup e.forward_map n = some toks →
    ∀ t ∈ toks, ∃ b, mlookup e.reverse_map t = some b ∧ n ∈ b
  revFwd : ∀ (t : String) (b : List Nat), mlookup e.reverse_map t = some b →
    ∀ n ∈ b, ∃ toks, mlookup e.forward_map n = some toks ∧ t ∈ toks
  counterBound : ∀ n : Nat,
    (mlookup e.reverse_ids_map n).isSome → n < e.id_num_counter

theorem inv_new_with (opt : SearchOptions) :
    Inv (SimSearch.new_with opt : SimSearch Id) := by
  constructor <;> intros <;> simp_all [SimSearch.new_with, mlookup]

/-- Under the invariant, `delete` succeeds and its effect on every map is
fully characterised; moreover, the deleted slot is left in no reverse-map
bucket. -/
theorem delete_spec (e : SimSearch Id) (id : Id) (hInv : Inv e) :
    ∃ e', e.delete id = some e' ∧ Inv e' ∧
      e'.option = e.option ∧
      e'.id_num_counter = e.id_num_counter ∧
      (∀ x, mlookup e'.ids_map x = if x = id then none else mlookup e.ids_map x) ∧
      (∀ n, mlookup e'.reverse_ids_map n =
        if mlookup e.ids_map id = some n then none else mlookup e.reverse_ids_map n) ∧
      (∀ n, mlookup e'.forward_map n =
        if mlookup e.ids_map id = some n then none else mlookup e.forward_map n) ∧
      (∀ n t b, mlookup e.ids_map id = some n →
        mlookup e'.reverse_map t = some b → n ∉ b) ∧
      (∀ t, (mlookup e'.reverse_map t).isSome ↔ (mlookup e.reverse_map t).isSome) := by
  cases hID : mlookup e.ids_map id with
  | none =>
    refine ⟨e, ?_, hInv, rfl, rfl, ?_, ?_, ?_, ?_, fun t => Iff.rfl⟩
    · show SimSearch.delete e id = some e
      simp only [SimSearch.delete, hID]
    · intro x
      by_cases hx : x = id
      · rw [if_pos hx, hx, hID]
      · rw [if_neg hx]
    · intro n
      rw [if_neg (by simp)]
    · intro n
      rw [if_neg (by simp)]
    · intro n t b hsome
      cases hsome
  | some n0 =>
    have hrids0 : mlookup e.reverse_ids_map n0 = some id := (hInv.bij id n0).1 hID
    have hfwdS : (mlookup e.forward_map n0).isSome :=
      (hInv.dom n0).2 (by rw [hrids0]; rfl)
    cases htoks : mlookup e.forward_map n0 with
    | none => rw [htoks] at hfwdS; cases hfwdS
    | some toks =>
    have hall : ∀ t ∈ toks, (mlookup e.reverse_map t).isSome := by
      intro t ht
      obtain ⟨b, hb, _⟩ := hInv.fwdRev n0 toks htoks t ht
      rw [hb]
      rfl
    obtain ⟨rm, hrm⟩ := removeAll_total toks e.reverse_map n0 hall
    have hrmc := removeAll_spec toks e.reverse_map rm n0 hrm
    have hids' : ∀ x, mlookup (merase e.ids_map id) x =
        if x = id then none else mlookup e.ids_map x := by
      intro x
      by_cases hx : x = id
      · rw [if_pos hx, hx, mlookup_merase_self]
      · rw [if_neg hx, mlookup_merase_ne _ _ _ (fun hh => hx hh.symm)]
    have hrids' : ∀ n, mlookup (merase e.reverse_ids_map n0) n =
        if (some n0 : Option Nat) = some n then none
        else mlookup e.reverse_ids_map n := by
      intro n
      by_cases hn : n = n0
      · rw [if_pos (by rw [hn]), hn, mlookup_merase_self]
      · rw [if_neg (by
          intro hc
          injection hc with hc'
          exact hn hc'.symm),
          mlookup_merase_ne _ _ _ (fun hh => hn hh.symm)]
    have hfwd' : ∀ n, mlookup (merase e.forward_map n0) n =
        if (some n0 : Option Nat) = some n then none else mlookup e.forward_map n := by
      intro n
      by_cases hn : n = n0
      · rw [if_pos (by rw [hn]), hn, mlookup_merase_self]
      · rw [if_neg (by
          intro hc
          injection hc with hc'
          exact hn hc'.symm),
          mlookup_merase_ne _ _ _ (fun hh => hn hh.symm)]
    have hstale : ∀ t b, mlookup rm t = some b → n0 ∉ b := by
      intro t b hb hmem
      rw [hrmc t] at hb
      by_cases ht : t ∈ toks
      · rw [if_pos ht] at hb
        cases hml : mlookup e.reverse_map t with
        | none => rw [hml] at hb; cases hb
        | some b1 =>
          rw [hml] at hb
          injection hb with hb'
          rw [← hb'] at hmem
          have := (List.mem_filter.1 hmem).2
          simp at this
      · rw [if_neg ht] at hb
        obtain ⟨toks', hfw', ht'⟩ := hInv.revFwd t b hb n0 hmem
        rw [htoks] at hfw'
        injection hfw' with hfw''
        rw [hfw''] at ht
        exact ht ht'
    have hsome_iff : ∀ t, (mlookup rm t).isSome ↔ (mlookup e.reverse_map t).isSome := by
      intro t
      rw [hrmc t]
      by_cases ht : t ∈ toks
      · rw [if_pos ht]
        cases mlookup e.reverse_map t <;> simp
      · rw [if_neg ht]
    refine ⟨{ e with
        forward_map := merase e.forward_map n0
        reverse_ids_map := merase e.reverse_ids_map n0
        ids_map := merase e.ids_map id
        reverse_map := rm }, ?_, ?_, rfl, rfl, hids', hrids', hfwd', ?_, hsome_iff⟩
    · show SimSearch.delete e id = _
      simp only [SimSearch.delete, hID, htoks, hrm]
    · constructor
      · intro x n
        show mlookup (merase e.ids_map id) x = some n ↔
          mlookup (merase e.reverse_ids_map n0) n = some x
        rw [hids' x, hrids' n]
        by_cases hx : x = id
        · rw [if_pos hx]
          constructor
          · intro h; cases h
          · intro h
            by_cases hn : (some n0 : Option Nat) = some n
            · rw [if_pos hn] at h; cases h
            · rw [if_neg hn] at h
              have hxn := (hInv.bij x n).2 h
              rw [hx] at hxn
              exact absurd (hID.symm.trans hxn) hn
        · rw [if_neg hx]
          by_cases hn : (some n0 : Option Nat) = some n
          · rw [if_pos hn]
            constructor
            · intro h
              have h1 := (hInv.bij x n).1 h
              have h2 := (hInv.bij id n).1 (hID.trans hn)
              rw [h2] at h1
              injection h1 with h1'
              exact absurd h1'.symm hx
            · intro h; cases h
          · rw [if_neg hn]
            exact hInv.bij x n
      · intro n
        show (mlookup (merase e.forward_map n0) n).isSome ↔
          (mlookup (merase e.reverse_ids_map n0) n).isSome
        rw [hfwd' n, hrids' n]
        by_cases hn : (some n0 : Option Nat) = some n
        · rw [if_pos hn, if_pos hn]
          exact Iff.rfl
        · rw [if_neg hn, if_neg hn]
          exact hInv.dom n
      · intro n toks' hf t ht
        rw [show mlookup ({ e with
            forward_map := merase e.forward_map n0
            reverse_ids_map := merase e.reverse_ids_map n0
            ids_map := merase e.ids_map id
            reverse_map := rm } : SimSearch Id).forward_map n =
          mlookup (merase e.forward_map n0) n from rfl, hfwd' n] at hf
        by_cases hn : (some n0 : Option Nat) = some n
        · rw [if_pos hn] at hf; cases hf
        · rw [if_neg hn] at hf
          obtain ⟨b, hb, hnb⟩ := hInv.fwdRev n toks' hf t ht
          have hne0 : n ≠ n0 := by
            intro hh
            rw [hh] at hn
            exact hn rfl
          show ∃ b', mlookup rm t = some b' ∧ n ∈ b'
          rw [hrmc t]
          by_cases htk : t ∈ toks
          · rw [if_pos htk, hb]
            exact ⟨_, rfl, List.mem_filter.2 ⟨hnb, by simp [hne0]⟩⟩
          · rw [if_neg htk]
            exact ⟨b, hb, hnb⟩
      · intro t b hb x hx
        rw [show mlookup ({ e with
            forward_map := merase e.forward_map n0
            reverse_ids_map := merase e.reverse_ids_map n0
            ids_map := merase e.ids_map id
            reverse_map := rm } : SimSearch Id).reverse_map t =
          mlookup rm t from rfl, hrmc t] at hb
        have hxold : x ∈ b → (∃ b1, mlookup e.reverse_map t = some b1 ∧ x ∈ b1) →
          x ≠ n0 → ∃ toks', mlookup (merase e.forward_map n0) x = some toks' ∧
            t ∈ toks' := by
          intro _ hex hxne
          obtain ⟨b1, hb1, hxb1⟩ := hex
          obtain ⟨toks', hfw', ht'⟩ := hInv.revFwd t b1 hb1 x hxb1
          refine ⟨toks', ?_, ht'⟩
          rw [hfwd' x, if_neg (by
            intro hc
            injection hc with hc'
            exact hxne hc'.symm)]
          exact hfw'
        by_cases htk : t ∈ toks
        · rw [if_pos htk] at hb
          cases hml : mlookup e.reverse_map t with
          | none => rw [hml] at hb; cases hb
          | some b1 =>
            rw [hml] at hb
            injection hb with hb'
            rw [← hb'] at hx
            have hx1 := (List.mem_filter.1 hx).1
            have hxne : x ≠ n0 := by
              have := (List.mem_filter.1 hx).2
              simpa using this
            exact hxold (hb' ▸ hx) ⟨b1, hml, hx1⟩ hxne
        · rw [if_neg htk] at hb
          have hxne : x ≠ n0 := by
            intro hh
            obtain ⟨toks', hfw', ht'⟩ := hInv.revFwd t b hb x hx
            rw [hh, htoks] at hfw'
            injection hfw' with hfw''
            rw [hfw''] at htk
            exact htk ht'
          exact hxold hx ⟨b, hb, hx⟩ hxne
      · intro n hsome
        show n < e.id_num_counter
        rw [show mlookup ({ e with
            forward_map := merase e.forward_map n0
            reverse_ids_map := merase e.reverse_ids_map n0
            ids_map := merase e.ids_map id
            reverse_map := rm } : SimSearch Id).reverse_ids_map n =
          mlookup (merase e.reverse_ids_map n0) n from rfl, hrids' n] at hsome
        by_cases hn : (some n0 : Option Nat) = some n
        · rw [if_pos hn] at hsome; cases hsome
        · rw [if_neg hn] at hsome
          exact hInv.counterBound n hsome
    · intro n t b hn hb
      have hnn0 : n = n0 := by
        injection hn with hn'
        exact hn'.symm
      rw [hnn0]
      intro hmem
      exact hstale t b hb hmem

/-- Under the invariant, `insert_tokens` succeeds, preserves the invariant,
bumps the counter, rebinds the identifier to the fresh slot and stores the
normalized tokens under that slot. -/
theorem insert_tokens_spec (e : SimSearch Id) (id : Id) (tokens : List String)
    (hInv : Inv e) :
    ∃ e', e.insert_tokens id tokens = some e' ∧ Inv e' ∧
      e'.option = e.option ∧
      e'.id_num_counter = e.id_num_counter + 1 ∧
      (∀ x, mlookup e'.ids_map x =
        if x = id then some e.id_num_counter else mlookup e.ids_map x) ∧
      mlookup e'.forward_map e.id_num_counter =
        some (normTokens e.option tokens) := by
  obtain ⟨e1, hdel, hInv1, hopt1, hcnt1, hids1, _, _, _, _⟩ :=
    delete_spec e id hInv
  have hins : e.insert_tokens id tokens = some
      { e1 with
        id_num_counter := e1.id_num_counter + 1
        ids_map := minsert e1.ids_map id e1.id_num_counter
        reverse_ids_map := minsert e1.reverse_ids_map e1.id_num_counter id
        forward_map := minsert e1.forward_map e1.id_num_counter
          (normTokens e1.option tokens)
        reverse_map := (normTokens e1.option tokens).foldl
          (fun m t => pushBucket m t e1.id_num_counter) e1.reverse_map } := by
    show SimSearch.insert_tokens e id tokens = _
    simp only [SimSearch.insert_tokens, hdel]
  have hfresh_rids : mlookup e1.reverse_ids_map e1.id_num_counter = none := by
    cases h : mlookup e1.reverse_ids_map e1.id_num_counter with
    | none => rfl
    | some x =>
      have := hInv1.counterBound e1.id_num_counter (by rw [h]; rfl)
      omega
  have hfresh_fwd : mlookup e1.forward_map e1.id_num_counter = none := by
    cases h : mlookup e1.forward_map e1.id_num_counter with
    | none => rfl
    | some toks =>
      have := (hInv1.dom e1.id_num_counter).1 (by rw [h]; rfl)
      rw [hfresh_rids] at this
      cases this
  have hfresh_bucket : ∀ t b, mlookup e1.reverse_map t = some b →
      e1.id_num_counter ∉ b := by
    intro t b hb hmem
    obtain ⟨toks', hfw', _⟩ := hInv1.revFwd t b hb _ hmem
    have := (hInv1.dom e1.id_num_counter).1 (by rw [hfw']; rfl)
    rw [hfresh_rids] at this
    cases this
  have hids_e1_id : mlookup e1.ids_map id = none := by
    rw [hids1 id, if_pos rfl]
  refine ⟨_, hins, ?_, hopt1, by rw [hcnt1], ?_, ?_⟩
  · constructor
    · intro x n
      show mlookup (minsert e1.ids_map id e1.id_num_counter) x = some n ↔
        mlookup (minsert e1.reverse_ids_map e1.id_num_counter id) n = some x
      by_cases hx : x = id
      · constructor
        · intro h
          rw [hx, mlookup_minsert_self] at h
          injection h with h'
          rw [← h', mlookup_minsert_self, hx]
        · intro h
          by_cases hn : n = e1.id_num_counter
          · rw [hx, hn, mlookup_minsert_self]
          · rw [mlookup_minsert_ne _ _ _ _ (fun hh => hn hh.symm)] at h
            have := (hInv1.bij x n).2 h
            rw [hx, hids_e1_id] at this
            cases this
      · rw [mlookup_minsert_ne _ _ _ _ (fun hh => hx hh.symm)]
        by_cases hn : n = e1.id_num_counter
        · rw [hn, mlookup_minsert_self]
          constructor
          · intro h
            have := (hInv1.bij x e1.id_num_counter).1 h
            rw [hfresh_rids] at this
            cases this
          · intro h
            injection h with h'
            exact absurd h'.symm hx
        · rw [mlookup_minsert_ne _ _ _ _ (fun hh => hn hh.symm)]
          exact hInv1.bij x n
    · intro n
      show (mlookup (minsert e1.forward_map e1.id_num_counter
          (normTokens e1.option tokens)) n).isSome ↔
        (mlookup (minsert e1.reverse_ids_map e1.id_num_counter id) n).isSome
      by_cases hn : n = e1.id_num_counter
      · rw [hn, mlookup_minsert_self, mlookup_minsert_self]
        exact Iff.rfl
      · rw [mlookup_minsert_ne _ _ _ _ (fun hh => hn hh.symm),
          mlookup_minsert_ne _ _ _ _ (fun hh => hn hh.symm)]
        exact hInv1.dom n
    · intro n toks' hf t ht
      show ∃ b, mlookup ((normTokens e1.option tokens).foldl
        (fun m t => pushBucket m t e1.id_num_counter) e1.reverse_map) t = some b ∧
        n ∈ b
      by_cases hn : n = e1.id_num_counter
      · rw [hn, mlookup_minsert_self] at hf
        injection hf with hf'
        have ht' : t ∈ normTokens e1.option tokens := by rw [hf']; exact ht
        obtain ⟨b, hb, hmem⟩ := mlookup_foldPush_mem _ e1.reverse_map
          e1.id_num_counter t ht'
        exact ⟨b, hb, hn ▸ hmem⟩
      · rw [mlookup_minsert_ne _ _ _ _ (fun hh => hn hh.symm)] at hf
        obtain ⟨b0, hb0, hnb0⟩ := hInv1.fwdRev n toks' hf t ht
        obtain ⟨b, hb, hsub⟩ := mlookup_foldPush_old _ e1.reverse_map
          e1.id_num_counter t b0 hb0
        exact ⟨b, hb, hsub n hnb0⟩
    · intro t b hb x hx
      have hb' : mlookup ((normTokens e1.option tokens).foldl
          (fun m t => pushBucket m t e1.id_num_counter) e1.reverse_map) t =
          some b := hb
      rcases mlookup_foldPush_some _ _ _ _ _ hb' x hx with hold | hnew
      · obtain ⟨b0, hb0, hxb0⟩ := hold
        obtain ⟨toks'', hfw'', ht''⟩ := hInv1.revFwd t b0 hb0 x hxb0
        have hxne : x ≠ e1.id_num_counter := by
          intro hh
          rw [hh, hfresh_fwd] at hfw''
          cases hfw''
        refine ⟨toks'', ?_, ht''⟩
        show mlookup (minsert e1.forward_map e1.id_num_counter
          (normTokens e1.option tokens)) x = some toks''
        rw [mlookup_minsert_ne _ _ _ _ (fun hh => hxne hh.symm)]
        exact hfw''
      · refine ⟨normTokens e1.option tokens, ?_, hnew.2⟩
        show mlookup (minsert e1.forward_map e1.id_num_counter
          (normTokens e1.option tokens)) x = _
        rw [hnew.1, mlookup_minsert_self]
    · intro n hsome
      show n < e1.id_num_counter + 1
      by_cases hn : n = e1.id_num_counter
      · omega
      · have : (mlookup (minsert e1.reverse_ids_map e1.id_num_counter id) n).isSome :=
          hsome
        rw [mlookup_minsert_ne _ _ _ _ (fun hh => hn hh.symm)] at this
        have := hInv1.counterBound n this
        omega
  · intro x
    show mlookup (minsert e1.ids_map id e1.id_num_counter) x = _
    by_cases hx : x = id
    · rw [hx, mlookup_minsert_self, if_pos rfl, hcnt1]
    · rw [mlookup_minsert_ne _ _ _ _ (fun hh => hx hh.symm), if_neg hx,
        hids1 x, if_neg hx]
  · show mlookup (minsert e1.forward_map e1.id_num_counter
      (normTokens e1.option tokens)) e.id_num_counter = _
    rw [← hcnt1, mlookup_minsert_self, hopt1]

/-- Engine states reachable from a fresh engine by successful
`insert_tokens`/`delete` operations (`insert` and `search` are wrappers). -/
inductive Reachable : SimSearch Id → Prop where
  | new_with (opt : SearchOptions) : Reachable (SimSearch.new_with opt)
  | insert_tokens (e : SimSearch Id) (id : Id) (tokens : List String)
      (e' : SimSearch Id) :
      Reachable e → e.insert_tokens id tokens = some e' → Reachable e'
  | delete (e : SimSearch Id) (id : Id) (e' : SimSearch Id) :
      Reachable e → e.delete id = some e' → Reachable e'

theorem reachable_inv {e : SimSearch Id} (h : Reachable e) : Inv e := by
  induction h with
  | new_with opt => exact inv_new_with opt
  | insert_tokens e id tokens e' _ hins ih =>
    obtain ⟨e'', hins', hInv'', _⟩ := insert_tokens_spec e id tokens ih
    rw [hins] at hins'
    injection hins' with hh
    exact hh ▸ hInv''
  | delete e id e' _ hdel ih =>
    obtain ⟨e'', hdel', hInv'', _⟩ := delete_spec e id ih
    rw [hdel] at hdel'
    injection hdel' with hh
    exact hh ▸ hInv''

/-! ### Characterisation of the search pipeline -/

/-- Pointwise value of one query token's pass over the vocabulary: a
qualifying vocabulary token gets its score stored (overwriting), everything
else is untouched. -/
theorem searchTokenScores_inner (opt : SearchOptions) (q : String) :
    ∀ (V : List String) (init : List (String × ℚ)) (tok : String),
    mlookup (V.foldl (fun ts token =>
      let score := scoreOf opt token q
      if score > opt.threshold then minsert ts token score else ts) init) tok =
    if tok ∈ V ∧ scoreOf opt tok q > opt.threshold
    then some (scoreOf opt tok q) else mlookup init tok := by
  intro V
  induction V with
  | nil =>
    intro init tok
    simp
  | cons v rest ih =>
    intro init tok
    rw [List.foldl_cons, ih]
    dsimp only
    by_cases hv : scoreOf opt v q > opt.threshold
    · rw [if_pos hv]
      by_cases hvt : v = tok
      · subst hvt
        rw [mlookup_minsert_self]
        by_cases hmem : v ∈ rest
        · rw [if_pos ⟨hmem, hv⟩, if_pos ⟨List.mem_cons_of_mem _ hmem, hv⟩]
        · rw [if_neg (fun hc : v ∈ rest ∧ scoreOf opt v q > opt.threshold =>
              hmem hc.1),
            if_pos ⟨List.mem_cons_self _ _, hv⟩]
      · rw [mlookup_minsert_ne _ _ _ _ hvt]
        by_cases hq : scoreOf opt tok q > opt.threshold
        · by_cases hmem : tok ∈ rest
          · rw [if_pos ⟨hmem, hq⟩, if_pos ⟨List.mem_cons_of_mem _ hmem, hq⟩]
          · rw [if_neg (fun hc : tok ∈ rest ∧ scoreOf opt tok q > opt.threshold =>
                hmem hc.1),
              if_neg (fun hc : tok ∈ v :: rest ∧ scoreOf opt tok q > opt.threshold => by
                rcases List.mem_cons.1 hc.1 with h1 | h2
                · exact hvt h1.symm
                · exact hmem h2)]
        · rw [if_neg (fun hc : tok ∈ rest ∧ scoreOf opt tok q > opt.threshold =>
              hq hc.2),
            if_neg (fun hc : tok ∈ v :: rest ∧ scoreOf opt tok q > opt.threshold =>
              hq hc.2)]
    · rw [if_neg hv]
      by_cases hq : scoreOf opt tok q > opt.threshold
      · by_cases hmem : tok ∈ rest
        · rw [if_pos ⟨hmem, hq⟩, if_pos ⟨List.mem_cons_of_mem _ hmem, hq⟩]
        · have hvt : ¬ v = tok := fun hh => hv (by rw [hh]; exact hq)
          rw [if_neg (fun hc : tok ∈ rest ∧ scoreOf opt tok q > opt.threshold =>
              hmem hc.1),
            if_neg (fun hc : tok ∈ v :: rest ∧ scoreOf opt tok q > opt.threshold => by
              rcases List.mem_cons.1 hc.1 with h1 | h2
              · exact hvt h1.symm
              · exact hmem h2)]
      · rw [if_neg (fun hc : tok ∈ rest ∧ scoreOf opt tok q > opt.threshold =>
            hq hc.2),
          if_neg (fun hc : tok ∈ v :: rest ∧ scoreOf opt tok q > opt.threshold =>
            hq hc.2)]

/-- Pointwise characterisation of `token_scores` over the whole query:
a left fold over the sorted, deduplicated query tokens in which each
qualifying query token overwrites the stored score; the final value is
therefore the score against the last qualifying query token. -/
theorem searchTokenScores_spec (e : SimSearch Id) (pattern_tokens : List String)
    (tok : String) :
    mlookup (searchTokenScores e pattern_tokens) tok =
      (normTokens e.option pattern_tokens).foldl
        (fun acc q =>
          if tok ∈ vocabKeys e ∧ scoreOf e.option tok q > e.option.threshold
          then some (scoreOf e.option tok q) else acc)
        none := by
  unfold searchTokenScores
  generalize normTokens e.option pattern_tokens = pats
  have main : ∀ (pats : List String) (init : List (String × ℚ)),
      mlookup (pats.foldl (fun ts p => (vocabKeys e).foldl
        (fun ts token =>
          let score := scoreOf e.option token p
          if score > e.option.threshold then minsert ts token score else ts) ts)
        init) tok =
      pats.foldl (fun acc q =>
        if tok ∈ vocabKeys e ∧ scoreOf e.option tok q > e.option.threshold
        then some (scoreOf e.option tok q) else acc) (mlookup init tok) := by
    intro pats
    induction pats with
    | nil => intro init; rfl
    | cons p rest ih =>
      intro init
      rw [List.foldl_cons, List.foldl_cons, ih, searchTokenScores_inner]
  have := main pats []
  rw [this]
  rfl

/-- Existence version: `token_scores` holds a token iff it is in the
vocabulary and qualifies against at least one query token. -/
theorem searchTokenScores_isSome (e : SimSearch Id) (pattern_tokens : List String)
    (tok : String) :
    (mlookup (searchTokenScores e pattern_tokens) tok).isSome ↔
      tok ∈ vocabKeys e ∧ ∃ q ∈ normTokens e.option pattern_tokens,
        scoreOf e.option tok q > e.option.threshold := by
  rw [searchTokenScores_spec]
  generalize normTokens e.option pattern_tokens = pats
  have main : ∀ (pats : List String) (init : Option ℚ),
      (pats.foldl (fun acc q =>
        if tok ∈ vocabKeys e ∧ scoreOf e.option tok q > e.option.threshold
        then some (scoreOf e.option tok q) else acc) init).isSome ↔
      init.isSome ∨ (tok ∈ vocabKeys e ∧ ∃ q ∈ pats,
        scoreOf e.option tok q > e.option.threshold) := by
    intro pats
    induction pats with
    | nil => intro init; simp
    | cons p rest ih =>
      intro init
      rw [List.foldl_cons, ih]
      by_cases hc : tok ∈ vocabKeys e ∧ scoreOf e.option tok p > e.option.threshold
      · rw [if_pos hc]
        simp only [Option.isSome_some, true_or, true_iff]
        exact Or.inr ⟨hc.1, p, List.mem_cons_self _ _, hc.2⟩
      · rw [if_neg hc]
        constructor
        · intro h
          rcases h with h1 | ⟨hv, q, hq, hs⟩
          · exact Or.inl h1
          · exact Or.inr ⟨hv, q, List.mem_cons_of_mem _ hq, hs⟩
        · intro h
          rcases h with h1 | ⟨hv, q, hq, hs⟩
          · exact Or.inl h1
          · rcases List.mem_cons.1 hq with h2 | h3
            · exact absurd ⟨hv, h2 ▸ hs⟩ hc
            · exact Or.inr ⟨hv, q, h3, hs⟩
  rw [main pats none]
  simp

theorem addScore_fold_isSome (bucket : List Nat) :
    ∀ (rs : List (Nat × ℚ)) (s : ℚ) (n : Nat),
    (mlookup (bucket.foldl (fun acc x => addScore acc x s) rs) n).isSome ↔
      (mlookup rs n).isSome ∨ n ∈ bucket := by
  induction bucket with
  | nil =>
    intro rs s n
    simp
  | cons x rest ih =>
    intro rs s n
    rw [List.foldl_cons, ih]
    rw [mlookup_addScore]
    by_cases hn : n = x
    · simp [hn]
    · simp [hn, fun hh : x = n => hn hh.symm]

theorem addScore_fold_nodupKeys (bucket : List Nat) :
    ∀ (rs : List (Nat × ℚ)) (s : ℚ), NodupKeys rs →
    NodupKeys (bucket.foldl (fun acc x => addScore acc x s) rs) := by
  induction bucket with
  | nil => intro rs s h; exact h
  | cons x rest ih =>
    intro rs s h
    rw [List.foldl_cons]
    exact ih _ _ (nodupKeys_addScore rs x s h)

theorem accumScores_total (tslist : List (String × ℚ))
    (rev : List (String × List Nat)) :
    ∀ (rs : List (Nat × ℚ)), (∀ p ∈ tslist, (mlookup rev p.1).isSome) →
    ∃ rs', accumScores rev tslist rs = some rs' := by
  induction tslist with
  | nil => intro rs _; exact ⟨rs, rfl⟩
  | cons p rest ih =>
    intro rs hall
    obtain ⟨tok, score⟩ := p
    have hS := hall (tok, score) (List.mem_cons_self _ _)
    cases hb : mlookup rev tok with
    | none => rw [hb] at hS; cases hS
    | some bucket =>
      obtain ⟨rs', hrs'⟩ := ih (bucket.foldl (fun acc n => addScore acc n score) rs)
        (fun q hq => hall q (List.mem_cons_of_mem _ hq))
      refine ⟨rs', ?_⟩
      show (match mlookup rev tok with
        | none => none
        | some bucket => accumScores rev rest
            (bucket.foldl (fun acc n => addScore acc n score) rs)) = some rs'
      rw [hb]
      exact hrs'

theorem accumScores_isSome (tslist : List (String × ℚ))
    (rev : List (String × List Nat)) :
    ∀ (rs rs' : List (Nat × ℚ)), accumScores rev tslist rs = some rs' →
    ∀ n, (mlookup rs' n).isSome ↔
      (mlookup rs n).isSome ∨
        ∃ p ∈ tslist, ∃ b, mlookup rev p.1 = some b ∧ n ∈ b := by
  induction tslist with
  | nil =>
    intro rs rs' h n
    have : rs' = rs := by
      simp only [accumScores] at h
      injection h with hh
      exact hh.symm
    subst this
    simp
  | cons p rest ih =>
    intro rs rs' h n
    obtain ⟨tok, score⟩ := p
    rw [show accumScores rev ((tok, score) :: rest) rs =
      (match mlookup rev tok with
        | none => none
        | some bucket => accumScores rev rest
            (bucket.foldl (fun acc n => addScore acc n score) rs)) from rfl] at h
    cases hb : mlookup rev tok with
    | none => rw [hb] at h; cases h
    | some bucket =>
      rw [hb] at h
      rw [ih _ _ h n, addScore_fold_isSome]
      constructor
      · intro hh
        rcases hh with (h1 | h2) | h3
        · exact Or.inl h1
        · exact Or.inr ⟨(tok, score), List.mem_cons_self _ _, bucket, hb, h2⟩
        · obtain ⟨q, hq, b, hbq, hnb⟩ := h3
          exact Or.inr ⟨q, List.mem_cons_of_mem _ hq, b, hbq, hnb⟩
      · intro hh
        rcases hh with h1 | ⟨q, hq, b, hbq, hnb⟩
        · exact Or.inl (Or.inl h1)
        · rcases List.mem_cons.1 hq with hq1 | hq2
          · subst hq1
            rw [hb] at hbq
            injection hbq with hbq'
            exact Or.inl (Or.inr (hbq' ▸ hnb))
          · exact Or.inr ⟨q, hq2, b, hbq, hnb⟩

theorem accumScores_nodupKeys (tslist : List (String × ℚ))
    (rev : List (String × List Nat)) :
    ∀ (rs rs' : List (Nat × ℚ)), accumScores rev tslist rs = some rs' →
    NodupKeys rs → NodupKeys rs' := by
  induction tslist with
  | nil =>
    intro rs rs' h hn
    simp only [accumScores] at h
    injection h with hh
    exact hh ▸ hn
  | cons p rest ih =>
    intro rs rs' h hn
    obtain ⟨tok, score⟩ := p
    rw [show accumScores rev ((tok, score) :: rest) rs =
      (match mlookup rev tok with
        | none => none
        | some bucket => accumScores rev rest
            (bucket.foldl (fun acc n => addScore acc n score) rs)) from rfl] at h
    cases hb : mlookup rev tok with
    | none => rw [hb] at h; cases h
    | some bucket =>
      rw [hb] at h
      exact ih _ _ h (addScore_fold_nodupKeys bucket rs score hn)

theorem insertScoreDesc_perm (x : Nat × ℚ) (l : List (Nat × ℚ)) :
    List.Perm (insertScoreDesc x l) (x :: l) := by
  induction l with
  | nil => exact List.Perm.refl _
  | cons y ys ih =>
    show (if y.2 < x.2 then y :: insertScoreDesc x ys else x :: y :: ys).Perm _
    by_cases h : y.2 < x.2
    · rw [if_pos h]
      exact (List.Perm.cons y ih).trans (List.Perm.swap x y ys)
    · rw [if_neg h]

theorem sortScoresDesc_perm (rs : List (Nat × ℚ)) :
    List.Perm (sortScoresDesc rs) rs := by
  induction rs with
  | nil => exact List.Perm.refl _
  | cons x xs ih =>
    show (insertScoreDesc x (sortScoresDesc xs)).Perm (x :: xs)
    exact (insertScoreDesc_perm x (sortScoresDesc xs)).trans (List.Perm.cons x ih)

theorem lookupIds_total (rids : List (Nat × Id)) :
    ∀ (rs : List (Nat × ℚ)), (∀ p ∈ rs, (mlookup rids p.1).isSome) →
    ∃ l, lookupIds rids rs = some l := by
  intro rs
  induction rs with
  | nil => intro _; exact ⟨[], rfl⟩
  | cons p rest ih =>
    intro hall
    obtain ⟨n, s⟩ := p
    have hS := hall (n, s) (List.mem_cons_self _ _)
    cases hb : mlookup rids n with
    | none => rw [hb] at hS; cases hS
    | some id =>
      obtain ⟨l, hl⟩ := ih (fun q hq => hall q (List.mem_cons_of_mem _ hq))
      refine ⟨id :: l, ?_⟩
      show (match mlookup rids n, lookupIds rids rest with
        | some id, some l => some (id :: l)
        | _, _ => none) = some (id :: l)
      rw [hb, hl]

theorem lookupIds_mem (rids : List (Nat × Id)) :
    ∀ (rs : List (Nat × ℚ)) (l : List Id), lookupIds rids rs = some l →
    ∀ x : Id, x ∈ l ↔ ∃ p ∈ rs, mlookup rids p.1 = some x := by
  intro rs
  induction rs with
  | nil =>
    intro l h x
    simp only [lookupIds] at h
    injection h with hh
    subst hh
    simp
  | cons p rest ih =>
    intro l h x
    obtain ⟨n, s⟩ := p
    rw [show lookupIds rids ((n, s) :: rest) =
      (match mlookup rids n, lookupIds rids rest with
        | some id, some l => some (id :: l)
        | _, _ => none) from rfl] at h
    cases hb : mlookup rids n with
    | none => rw [hb] at h; cases h
    | some id =>
      rw [hb] at h
      cases hrest : lookupIds rids rest with
      | none => rw [hrest] at h; cases h
      | some l' =>
        rw [hrest] at h
        injection h with hh
        subst hh
        constructor
        · intro hx
          rcases List.mem_cons.1 hx with h1 | h2
          · exact ⟨(n, s), List.mem_cons_self _ _, h1 ▸ hb⟩
          · obtain ⟨q, hq, hqx⟩ := (ih l' hrest x).1 h2
            exact ⟨q, List.mem_cons_of_mem _ hq, hqx⟩
        · intro hx
          obtain ⟨q, hq, hqx⟩ := hx
          rcases List.mem_cons.1 hq with h1 | h2
          · subst h1
            rw [hb] at hqx
            injection hqx with hqx'
            rw [← hqx']
            exact List.mem_cons_self _ _
          · exact List.mem_cons_of_mem _ ((ih l' hrest x).2 ⟨q, h2, hqx⟩)

theorem lookupIds_nodup (rids : List (Nat × Id)) :
    ∀ (rs : List (Nat × ℚ)) (l : List Id), lookupIds rids rs = some l →
    (rs.map Prod.fst).Nodup →
    (∀ (n1 n2 : Nat) (x : Id), mlookup rids n1 = some x →
      mlookup rids n2 = some x → n1 = n2) →
    l.Nodup := by
  intro rs
  induction rs with
  | nil =>
    intro l h _ _
    simp only [lookupIds] at h
    injection h with hh
    subst hh
    exact List.nodup_nil
  | cons p rest ih =>
    intro l h hnd hinj
    obtain ⟨n, s⟩ := p
    rw [show lookupIds rids ((n, s) :: rest) =
      (match mlookup rids n, lookupIds rids rest with
        | some id, some l => some (id :: l)
        | _, _ => none) from rfl] at h
    cases hb : mlookup rids n with
    | none => rw [hb] at h; cases h
    | some id =>
      rw [hb] at h
      cases hrest : lookupIds rids rest with
      | none => rw [hrest] at h; cases h
      | some l' =>
        rw [hrest] at h
        injection h with hh
        subst hh
        rw [List.map_cons] at hnd
        have hnd' := List.nodup_cons.1 hnd
        refine List.nodup_cons.2 ⟨?_, ih l' hrest hnd'.2 hinj⟩
        intro hidmem
        obtain ⟨q, hq, hqid⟩ := (lookupIds_mem rids rest l' hrest id).1 hidmem
        have heq := hinj n q.1 id hb hqid
        have hmm : n ∈ rest.map Prod.fst := by
          rw [heq]
          exact List.mem_map_of_mem Prod.fst hq
        exact hnd'.1 hmm

theorem searchTokenScores_nodupKeys (e : SimSearch Id) (pats : List String) :
    NodupKeys (searchTokenScores e pats) := by
  unfold searchTokenScores
  generalize normTokens e.option pats = P
  have inner : ∀ (V : List String) (q : String) (ts : List (String × ℚ)),
      NodupKeys ts → NodupKeys (V.foldl (fun ts token =>
        let score := scoreOf e.option token q
        if score > e.option.threshold then minsert ts token score else ts) ts) := by
    intro V
    induction V with
    | nil => intro q ts h; exact h
    | cons v rest ih =>
      intro q ts h
      rw [List.foldl_cons]
      apply ih
      dsimp only
      by_cases hv : scoreOf e.option v q > e.option.threshold
      · rw [if_pos hv]
        exact nodupKeys_minsert _ _ _ h
      · rw [if_neg hv]
        exact h
  have outer : ∀ (P : List String) (ts : List (String × ℚ)),
      NodupKeys ts → NodupKeys (P.foldl (fun ts p => (vocabKeys e).foldl
        (fun ts token =>
          let score := scoreOf e.option token p
          if score > e.option.threshold then minsert ts token score else ts) ts)
        ts) := by
    intro P
    induction P with
    | nil => intro ts h; exact h
    | cons p rest ih =>
      intro ts h
      rw [List.foldl_cons]
      exact ih _ (inner (vocabKeys e) p ts h)
  exact outer P [] (by simp [NodupKeys])

/-- The full behaviour of `search_tokens` on a consistent engine: it
succeeds, returns no duplicate identifiers, and returns exactly the
identifiers whose slot lies in the bucket of some scored vocabulary
token. -/
theorem search_tokens_spec (e : SimSearch Id) (hInv : Inv e)
    (pats : List String) :
    ∃ l, e.search_tokens pats = some l ∧ l.Nodup ∧
      ∀ x : Id, x ∈ l ↔ ∃ n, mlookup e.reverse_ids_map n = some x ∧
        ∃ tok s b, mlookup (searchTokenScores e pats) tok = some s ∧
          mlookup e.reverse_map tok = some b ∧ n ∈ b := by
  have hkeys : ∀ p ∈ searchTokenScores e pats,
      (mlookup e.reverse_map p.1).isSome := by
    intro p hp
    have h1 : (mlookup (searchTokenScores e pats) p.1).isSome := by
      rw [mlookup_isSome_iff_mem_keys]
      exact List.mem_map_of_mem Prod.fst hp
    have h2 := (searchTokenScores_isSome e pats p.1).1 h1
    rw [mlookup_isSome_iff_mem_keys]
    exact h2.1
  obtain ⟨rs', hrs'⟩ := accumScores_total _ e.reverse_map [] hkeys
  have hrsSome := accumScores_isSome _ e.reverse_map [] rs' hrs'
  have hrsNodup : NodupKeys rs' :=
    accumScores_nodupKeys _ e.reverse_map [] rs' hrs' (by simp [NodupKeys])
  have hrids : ∀ p ∈ sortScoresDesc rs',
      (mlookup e.reverse_ids_map p.1).isSome := by
    intro p hp
    have hp' : p ∈ rs' := (sortScoresDesc_perm rs').mem_iff.1 hp
    have h1 : (mlookup rs' p.1).isSome := by
      rw [mlookup_isSome_iff_mem_keys]
      exact List.mem_map_of_mem Prod.fst hp'
    rcases (hrsSome p.1).1 h1 with h0 | ⟨q, _, b, hbq, hnb⟩
    · simp [mlookup] at h0
    · obtain ⟨toks, hfw, _⟩ := hInv.revFwd q.1 b hbq p.1 hnb
      exact (hInv.dom p.1).1 (by rw [hfw]; rfl)
  obtain ⟨l, hl⟩ := lookupIds_total e.reverse_ids_map (sortScoresDesc rs') hrids
  have hsearch : e.search_tokens pats = some l := by
    show (match accumScores e.reverse_map (searchTokenScores e pats) [] with
      | none => none
      | some result_scores =>
          lookupIds e.reverse_ids_map (sortScoresDesc result_scores)) = some l
    rw [hrs']
    exact hl
  refine ⟨l, hsearch, ?_, ?_⟩
  · apply lookupIds_nodup e.reverse_ids_map (sortScoresDesc rs') l hl
    · exact ((sortScoresDesc_perm rs').map Prod.fst).nodup_iff.2 hrsNodup
    · intro n1 n2 x h1 h2
      have b1 := (hInv.bij x n1).2 h1
      have b2 := (hInv.bij x n2).2 h2
      rw [b1] at b2
      injection b2
  · intro x
    rw [lookupIds_mem e.reverse_ids_map _ l hl x]
    constructor
    · rintro ⟨p, hp, hpx⟩
      have hp' : p ∈ rs' := (sortScoresDesc_perm rs').mem_iff.1 hp
      have h1 : (mlookup rs' p.1).isSome := by
        rw [mlookup_isSome_iff_mem_keys]
        exact List.mem_map_of_mem Prod.fst hp'
      rcases (hrsSome p.1).1 h1 with h0 | ⟨q, hq, b, hbq, hnb⟩
      · simp [mlookup] at h0
      · have hqpair : (q.1, q.2) ∈ searchTokenScores e pats := by
          rw [show ((q.1, q.2) : String × ℚ) = q from rfl]
          exact hq
        have hqs : mlookup (searchTokenScores e pats) q.1 = some q.2 :=
          mem_mlookup_of_nodup (searchTokenScores_nodupKeys e pats) hqpair
        exact ⟨p.1, hpx, q.1, q.2, b, hqs, hbq, hnb⟩
    · rintro ⟨n, hnx, tok, s, b, hts, hrev, hnb⟩
      have h1 : (mlookup rs' n).isSome :=
        (hrsSome n).2 (Or.inr ⟨(tok, s), mlookup_mem hts, b, hrev, hnb⟩)
      cases hml : mlookup rs' n with
      | none => rw [hml] at h1; cases h1
      | some s' =>
        have hpmem : (n, s') ∈ rs' := mlookup_mem hml
        have hsorted : (n, s') ∈ sortScoresDesc rs' :=
          (sortScoresDesc_perm rs').mem_iff.2 hpmem
        exact ⟨(n, s'), hsorted, hnx⟩

/-! ### Helper lemmas for the claims -/

theorem f64MIN_neg : f64MIN < 0 := by
  unfold f64MIN
  have h : (2 : ℤ) ^ 971 < 2 ^ 1024 := by
    exact pow_lt_pow_right₀ (by norm_num) (by norm_num)
  have : (-(2 ^ 1024 - 2 ^ 971) : ℤ) < 0 := by omega
  exact_mod_cast this

theorem u32Sat_mono {i j : ℤ} (h : i ≤ j) : u32Sat i ≤ u32Sat j := by
  unfold u32Sat
  have h1 : max i 0 ≤ max j 0 := max_le_max h le_rfl
  have h2 : (max i 0).toNat ≤ (max j 0).toNat := Int.toNat_le_toNat h1
  omega

theorem levDist_cast_le_len (v q : String)
    (hne : ((max (utf8Len v) (utf8Len q) : ℕ) : ℚ) ≠ 0) :
    ((levDist (utf8Bytes v) (utf8Bytes q) : ℚ)) ≤
      ((max (utf8Len v) (utf8Len q) : ℕ) : ℚ) := by
  have h := levDist_le_max (utf8Bytes v) (utf8Bytes q)
  have : levDist (utf8Bytes v) (utf8Bytes q) ≤ max (utf8Len v) (utf8Len q) := h
  exact_mod_cast this

/-- Closed form of the Levenshtein-mode score. -/
theorem scoreOf_lev_eq (opt : SearchOptions) (v q : String)
    (hl : opt.levenshtein = true) :
    scoreOf opt v q =
      if levDist (utf8Bytes v) (utf8Bytes q) ≤
          u32Sat ⌈(1 - opt.threshold) * ((max (utf8Len v) (utf8Len q) : ℕ) : ℚ)⌉
      then 1 - (if ((max (utf8Len v) (utf8Len q) : ℕ) : ℚ) = 0 then 0
        else (levDist (utf8Bytes v) (utf8Bytes q) : ℚ) /
          ((max (utf8Len v) (utf8Len q) : ℕ) : ℚ))
      else f64MIN := by
  unfold scoreOf levenshtein_simd_k
  rw [if_pos hl]
  dsimp only
  by_cases hc : levDist (utf8Bytes v) (utf8Bytes q) ≤
      u32Sat ⌈(1 - opt.threshold) * ((max (utf8Len v) (utf8Len q) : ℕ) : ℚ)⌉
  · rw [if_pos hc, if_pos hc]
  · rw [if_neg hc, if_neg hc]

/-- Monotonicity of qualification in the threshold: a pair qualifying at a
raised threshold also qualifies at the original one (in Levenshtein mode the
cutoff `k` shrinks as the threshold rises, so the case analysis matters). -/
theorem scoreOf_threshold_mono (opt : SearchOptions) (t2 : ℚ)
    (hle : opt.threshold ≤ t2) (v q : String)
    (h : scoreOf (opt.set_threshold t2) v q > t2) :
    scoreOf opt v q > opt.threshold := by
  by_cases hl : opt.levenshtein
  · have hl2 : (opt.set_threshold t2).levenshtein = true := hl
    have hth2 : (opt.set_threshold t2).threshold = t2 := rfl
    rw [scoreOf_lev_eq _ _ _ hl2, hth2] at h
    rw [scoreOf_lev_eq _ _ _ hl]
    set len : ℚ := ((max (utf8Len v) (utf8Len q) : ℕ) : ℚ) with hlen
    set d : ℕ := levDist (utf8Bytes v) (utf8Bytes q) with hd
    have hkmono : u32Sat ⌈(1 - t2) * len⌉ ≤ u32Sat ⌈(1 - opt.threshold) * len⌉ := by
      apply u32Sat_mono
      apply Int.ceil_le_ceil
      apply mul_le_mul_of_nonneg_right
      · linarith
      · rw [hlen]
        exact_mod_cast Nat.zero_le _
    by_cases hcut2 : d ≤ u32Sat ⌈(1 - t2) * len⌉
    · rw [if_pos hcut2] at h
      rw [if_pos (le_trans hcut2 hkmono)]
      linarith
    · rw [if_neg hcut2] at h
      have ht2neg : t2 < f64MIN := h
      by_cases hcut1 : d ≤ u32Sat ⌈(1 - opt.threshold) * len⌉
      · rw [if_pos hcut1]
        have hscore : (0 : ℚ) ≤ 1 - (if len = 0 then 0 else (d : ℚ) / len) := by
          by_cases h0 : len = 0
          · rw [if_pos h0]
            norm_num
          · rw [if_neg h0]
            have hdle : (d : ℚ) ≤ len := levDist_cast_le_len v q h0
            have hlpos : (0 : ℚ) < len := by
              rw [hlen]
              have hge : (0 : ℚ) ≤ ((max (utf8Len v) (utf8Len q) : ℕ) : ℚ) := by
                exact_mod_cast Nat.zero_le _
              rcases lt_or_eq_of_le hge with hh | hh
              · exact hh
              · exact absurd hh.symm h0
            have : (d : ℚ) / len ≤ 1 := by
              rw [div_le_one hlpos]
              exact hdle
            linarith
        have hmin := f64MIN_neg
        linarith
      · rw [if_neg hcut1]
        linarith
  · have hl2 : ¬ (opt.set_threshold t2).levenshtein := hl
    unfold scoreOf at h ⊢
    rw [if_neg hl2] at h
    rw [if_neg hl]
    linarith [h]

/-- When an engine holds exactly one live entry `(id, slot)` whose tokens are
`T`, a search returns `id` iff some token of `T` qualifies against some query
token. -/
theorem single_entry_mem (e : SimSearch Id) (hInv : Inv e) (id : Id)
    (slot : Nat) (T : List String)
    (hids : ∀ (x : Id) (n : Nat), mlookup e.ids_map x = some n ↔ (x = id ∧ n = slot))
    (hfwd : mlookup e.forward_map slot = some T)
    (pats : List String) (l : List Id) (hs : e.search_tokens pats = some l) :
    (id ∈ l ↔ ∃ tok ∈ T, ∃ q ∈ normTokens e.option pats,
      scoreOf e.option tok q > e.option.threshold) := by
  obtain ⟨l0, hs0, _, hmem⟩ := search_tokens_spec e hInv pats
  rw [hs] at hs0
  injection hs0 with hl0
  subst hl0
  rw [hmem id]
  constructor
  · rintro ⟨n, hrids, tok, s, b, hts, hrev, hnb⟩
    have hidsn : mlookup e.ids_map id = some n := (hInv.bij id n).2 hrids
    have hn : n = slot := ((hids id n).1 hidsn).2
    subst hn
    obtain ⟨toks', hfw', htok⟩ := hInv.revFwd tok b hrev n hnb
    rw [hfwd] at hfw'
    injection hfw' with hfw''
    have htokT : tok ∈ T := by
      rw [hfw'']
      exact htok
    have hq := (searchTokenScores_isSome e pats tok).1 (by rw [hts]; rfl)
    obtain ⟨_, q, hqmem, hqual⟩ := hq
    exact ⟨tok, htokT, q, hqmem, hqual⟩
  · rintro ⟨tok, htokT, q, hqmem, hqual⟩
    obtain ⟨b, hrev, hslot⟩ := hInv.fwdRev slot T hfwd tok htokT
    have hvocab : tok ∈ vocabKeys e := by
      rw [show vocabKeys e = e.reverse_map.map Prod.fst from rfl]
      rw [← mlookup_isSome_iff_mem_keys]
      rw [hrev]
      rfl
    have htsS : (mlookup (searchTokenScores e pats) tok).isSome :=
      (searchTokenScores_isSome e pats tok).2 ⟨hvocab, q, hqmem, hqual⟩
    cases hts : mlookup (searchTokenScores e pats) tok with
    | none => rw [hts] at htsS; cases htsS
    | some s =>
      have hidslot : mlookup e.ids_map id = some slot := (hids id slot).2 ⟨rfl, rfl⟩
      have hrids : mlookup e.reverse_ids_map slot = some id := (hInv.bij id slot).1 hidslot
      exact ⟨slot, hrids, tok, s, b, hts, hrev, hslot⟩

/-! ### Concrete sample engines used by the witnesses -/

/-- The engine obtained from `SimSearch::new()` followed by `insert(1, "ab")`. -/
def sampleEngine : SimSearch ℕ :=
  { option := SearchOptions.new
    id_num_counter := 1
    ids_map := [(1, 0)]
    reverse_ids_map := [(0, 1)]
    forward_map := [(0, ["ab"])]
    reverse_map := [("ab", [0])] }

/-- `sampleEngine` after `delete(1)`. -/
def sampleDeleted : SimSearch ℕ :=
  { option := SearchOptions.new
    id_num_counter := 1
    ids_map := []
    reverse_ids_map := []
    forward_map := []
    reverse_map := [("ab", [])] }

/-- Options selecting the Levenshtein metric with threshold `0.5`. -/
def levOptions : SearchOptions :=
  (SearchOptions.new.set_levenshtein true).set_threshold (mkRat 1 2)

/-- The engine obtained from `new_with(levOptions)` followed by
`insert(1, "abcd")`. -/
def levEngine : SimSearch ℕ :=
  { option := levOptions
    id_num_counter := 1
    ids_map := [(1, 0)]
    reverse_ids_map := [(0, 1)]
    forward_map := [(0, ["abcd"])]
    reverse_map := [("abcd", [0])] }

/-! ### The claims -/

/-- C2: on every engine state reachable by `insert`/`insert_tokens`/`delete`,
the identifier-to-slot and slot-to-identifier maps form a bijection, the slot
set of that bijection equals the key set of the forward map, every token of a
forward entry occurs in a reverse-map bucket containing its slot, and after a
`delete` no reverse-map bucket contains the deleted slot. -/
theorem C2_state_invariants (e : SimSearch Id) (h : Reachable e) :
    (∀ (id : Id) (n : Nat),
      mlookup e.ids_map id = some n ↔ mlookup e.reverse_ids_map n = some id) ∧
    (∀ n : Nat,
      (mlookup e.forward_map n).isSome ↔ (mlookup e.reverse_ids_map n).isSome) ∧
    (∀ (n : Nat) (toks : List String), mlookup e.forward_map n = some toks →
      ∀ t ∈ toks, ∃ b, mlookup e.reverse_map t = some b ∧ n ∈ b) ∧
    (∀ (id : Id) (n : Nat) (e' : SimSearch Id), mlookup e.ids_map id = some n →
      e.delete id = some e' → ∀ t b, mlookup e'.reverse_map t = some b → n ∉ b) := by
  have hInv := reachable_inv h
  refine ⟨hInv.bij, hInv.dom, hInv.fwdRev, ?_⟩
  intro id n e' hn hdel
  obtain ⟨e'', hdel', _, _, _, _, _, _, hstale, _⟩ := delete_spec e id hInv
  rw [hdel] at hdel'
  injection hdel' with hh
  intro t b hb
  exact hstale n t b hn (by rw [← hh]; exact hb)

theorem C2_state_invariants_witness :
    (∀ (id : ℕ) (n : Nat), mlookup sampleEngine.ids_map id = some n ↔
      mlookup sampleEngine.reverse_ids_map n = some id) ∧
    (∀ n : Nat, (mlookup sampleEngine.forward_map n).isSome ↔
      (mlookup sampleEngine.reverse_ids_map n).isSome) ∧
    (∀ (n : Nat) (toks : List String),
      mlookup sampleEngine.forward_map n = some toks →
      ∀ t ∈ toks, ∃ b, mlookup sampleEngine.reverse_map t = some b ∧ n ∈ b) ∧
    (∀ (id : ℕ) (n : Nat) (e' : SimSearch ℕ),
      mlookup sampleEngine.ids_map id = some n →
      sampleEngine.delete id = some e' →
      ∀ t b, mlookup e'.reverse_map t = some b → n ∉ b) :=
  C2_state_invariants sampleEngine
    (Reachable.insert_tokens _ 1 ["ab"] _ (Reachable.new_with SearchOptions.new)
      (by decide))

/-- C3: after `delete(id)` on a reachable engine, no `search` or
`search_tokens` call on the resulting state returns `id`, and deleting the
same id again is a no-op returning the state unchanged (no panic). -/
theorem C3_delete_removes_findability (e : SimSearch Id) (id : Id)
    (e' : SimSearch Id) (h : Reachable e) (hdel : e.delete id = some e') :
    (∀ (pats : List String) (l : List Id),
      e'.search_tokens pats = some l → id ∉ l) ∧
    (∀ (p : String) (l : List Id), e'.search p = some l → id ∉ l) ∧
    e'.delete id = some e' := by
  have hInv := reachable_inv h
  obtain ⟨e'', hdel', hInv'', _, _, hids'', _, _, _, _⟩ := delete_spec e id hInv
  rw [hdel] at hdel'
  injection hdel' with hh
  subst hh
  have hidnone : mlookup e'.ids_map id = none := by
    rw [hids'' id, if_pos rfl]
  have hmain : ∀ (pats : List String) (l : List Id),
      e'.search_tokens pats = some l → id ∉ l := by
    intro pats l hs hmem
    obtain ⟨l0, hs0, _, hmemiff⟩ := search_tokens_spec e' hInv'' pats
    rw [hs] at hs0
    injection hs0 with hl0
    rw [hl0] at hmem
    obtain ⟨n, hrids, _⟩ := (hmemiff id).1 hmem
    have hcontr := (hInv''.bij id n).2 hrids
    rw [hidnone] at hcontr
    cases hcontr
  refine ⟨hmain, fun p l hs => hmain [p] l hs, ?_⟩
  show SimSearch.delete e' id = some e'
  simp only [SimSearch.delete, hidnone]

theorem C3_delete_removes_findability_witness :
    (∀ (pats : List String) (l : List ℕ),
      sampleDeleted.search_tokens pats = some l → 1 ∉ l) ∧
    (∀ (p : String) (l : List ℕ), sampleDeleted.search p = some l → 1 ∉ l) ∧
    sampleDeleted.delete 1 = some sampleDeleted :=
  C3_delete_removes_findability sampleEngine 1 sampleDeleted
    (Reachable.insert_tokens _ 1 ["ab"] _ (Reachable.new_with SearchOptions.new)
      (by decide))
    (by decide)

/-- C9: on every reachable engine state, `search` and `search_tokens` run to
completion (return `some` rather than the `none` that models a panic) for
every query input, including empty, whitespace-only and non-ASCII strings. -/
theorem C9_search_never_panics (e : SimSearch Id) (h : Reachable e) :
    (∀ pats : List String, ∃ l, e.search_tokens pats = some l) ∧
    (∀ p : String, ∃ l, e.search p = some l) := by
  have hInv := reachable_inv h
  have hmain : ∀ pats : List String, ∃ l, e.search_tokens pats = some l := by
    intro pats
    obtain ⟨l, hs, _, _⟩ := search_tokens_spec e hInv pats
    exact ⟨l, hs⟩
  exact ⟨hmain, fun p => hmain [p]⟩

theorem C9_search_never_panics_witness :
    (∀ pats : List String, ∃ l, sampleEngine.search_tokens pats = some l) ∧
    (∀ p : String, ∃ l, sampleEngine.search p = some l) :=
  C9_search_never_panics sampleEngine
    (Reachable.insert_tokens _ 1 ["ab"] _ (Reachable.new_with SearchOptions.new)
      (by decide))

/-- C10: on every reachable engine state, the identifier sequence returned by
`search` or `search_tokens` contains each identifier at most once (per-slot
scores are accumulated in a slot-keyed map and the slot-to-identifier mapping
is injective). -/
theorem C10_results_nodup (e : SimSearch Id) (h : Reachable e) :
    (∀ (pats : List String) (l : List Id),
      e.search_tokens pats = some l → l.Nodup) ∧
    (∀ (p : String) (l : List Id), e.search p = some l → l.Nodup) := by
  have hInv := reachable_inv h
  have hmain : ∀ (pats : List String) (l : List Id),
      e.search_tokens pats = some l → l.Nodup := by
    intro pats l hs
    obtain ⟨l0, hs0, hnd, _⟩ := search_tokens_spec e hInv pats
    rw [hs] at hs0
    injection hs0 with hh
    rw [hh]
    exact hnd
  exact ⟨hmain, fun p l hs => hmain [p] l hs⟩

theorem C10_results_nodup_witness :
    (∀ (pats : List String) (l : List ℕ),
      sampleEngine.search_tokens pats = some l → l.Nodup) ∧
    (∀ (p : String) (l : List ℕ), sampleEngine.search p = some l → l.Nodup) :=
  C10_results_nodup sampleEngine
    (Reachable.insert_tokens _ 1 ["ab"] _ (Reachable.new_with SearchOptions.new)
      (by decide))

/-- C1 counterexample: with the Levenshtein metric and threshold `1/2`,
after `insert(1, "abcd")` the query tokens `"abcd"` and `"abce"` both
qualify against the vocabulary token `"abcd"` (scores `1` and `3/4`), yet
the retained score — and the per-slot total folded from it — is `3/4`, the
score of the later query token, which is neither the maximum (`1`) nor the
sum (`7/4`) of the qualifying scores. -/
theorem C1_counterexample :
    mlookup (searchTokenScores levEngine ["abcd abce"]) "abcd" = some (mkRat 3 4) ∧
    scoreOf levEngine.option "abcd" "abcd" = 1 ∧
    scoreOf levEngine.option "abcd" "abce" = mkRat 3 4 ∧
    levEngine.option.threshold < 1 ∧
    levEngine.option.threshold < mkRat 3 4 ∧
    (mkRat 3 4 : ℚ) ≠ 1 ∧
    (mkRat 3 4 : ℚ) ≠ 1 + mkRat 3 4 ∧
    accumScores levEngine.reverse_map
      (searchTokenScores levEngine ["abcd abce"]) [] =
      some [(0, mkRat 3 4)] := by
  decide

/-- C1 (amended): when a vocabulary token qualifies against several query
tokens, the score retained in `token_scores` (and folded into the per-slot
totals) is the score against the *last* qualifying query token in the
sorted, deduplicated query order — each later qualifying query token
overwrites the stored score — which is neither the maximum nor the sum of
the qualifying scores in general.  This theorem characterises the stored
value pointwise as exactly that overwrite fold. -/
theorem C1_token_scores_keep_last_qualifying (e : SimSearch Id)
    (pattern_tokens : List String) (tok : String) :
    mlookup (searchTokenScores e pattern_tokens) tok =
      (normTokens e.option pattern_tokens).foldl
        (fun acc q =>
          if tok ∈ vocabKeys e ∧ scoreOf e.option tok q > e.option.threshold
          then some (scoreOf e.option tok q) else acc)
        none :=
  searchTokenScores_spec e pattern_tokens tok

/-- C4: on any reachable engine whose threshold is strictly below `1`,
inserting `(id, content)` and then searching for the identical string
returns a result list containing `id`, provided the content tokenizes to at
least one token. -/
theorem C4_round_trip (e : SimSearch Id) (id : Id) (content : String)
    (e' : SimSearch Id) (h : Reachable e) (hins : e.insert id content = some e')
    (hne : tokenize e.option [content] ≠ [])
    (hth : e.option.threshold < 1) :
    ∃ l, e'.search content = some l ∧ id ∈ l := by
  have hInv := reachable_inv h
  obtain ⟨e'', hins', hInv'', hopt, hcnt, hids, hfwd⟩ :=
    insert_tokens_spec e id [content] hInv
  have hins2 : e.insert_tokens id [content] = some e' := hins
  rw [hins2] at hins'
  injection hins' with hh
  subst hh
  have hidsome : mlookup e'.ids_map id = some e.id_num_counter := by
    rw [hids id, if_pos rfl]
  have hrids : mlookup e'.reverse_ids_map e.id_num_counter = some id :=
    (hInv''.bij id _).1 hidsome
  have hTne : normTokens e.option [content] ≠ [] := normTokens_ne_nil _ _ hne
  cases hTcase : normTokens e.option [content] with
  | nil => exact absurd hTcase hTne
  | cons t0 rest =>
  have ht0 : t0 ∈ normTokens e.option [content] := by
    rw [hTcase]
    exact List.mem_cons_self _ _
  obtain ⟨b, hrev, hslot⟩ :=
    hInv''.fwdRev e.id_num_counter (normTokens e.option [content]) hfwd t0 ht0
  have hoptTok : normTokens e'.option [content] = normTokens e.option [content] := by
    rw [hopt]
  have hvocab : t0 ∈ vocabKeys e' := by
    rw [show vocabKeys e' = e'.reverse_map.map Prod.fst from rfl,
      ← mlookup_isSome_iff_mem_keys, hrev]
    rfl
  have hqual : scoreOf e'.option t0 t0 > e'.option.threshold := by
    rw [scoreOf_self]
    rw [hopt]
    exact hth
  have htsS : (mlookup (searchTokenScores e' [content]) t0).isSome :=
    (searchTokenScores_isSome e' [content] t0).2
      ⟨hvocab, t0, by rw [hoptTok]; exact ht0, hqual⟩
  obtain ⟨l, hs, _, hmemiff⟩ := search_tokens_spec e' hInv'' [content]
  refine ⟨l, hs, ?_⟩
  cases hts : mlookup (searchTokenScores e' [content]) t0 with
  | none =>
    rw [hts] at htsS
    cases htsS
  | some s =>
    exact (hmemiff id).2 ⟨e.id_num_counter, hrids, t0, s, b, hts, hrev, hslot⟩

/-- The engine obtained from `SimSearch::new()` followed by
`insert(7, "Hello World")`. -/
def sampleHello : SimSearch ℕ :=
  { option := SearchOptions.new
    id_num_counter := 1
    ids_map := [(7, 0)]
    reverse_ids_map := [(0, 7)]
    forward_map := [(0, ["hello", "world"])]
    reverse_map := [("hello", [0]), ("world", [0])] }

theorem C4_round_trip_witness :
    ∃ l, sampleHello.search "Hello World" = some l ∧ 7 ∈ l :=
  C4_round_trip (SimSearch.new_with SearchOptions.new) 7 "Hello World"
    sampleHello (Reachable.new_with SearchOptions.new) (by decide) (by decide)
    (by decide)

/-- C5 counterexample: constructing an engine with a threshold outside
`[0, 1]` is not rejected: `new_with` is total and stores the out-of-range
value `2` verbatim (no error, no clamping). -/
theorem C5_counterexample :
    (SimSearch.new_with (SearchOptions.new.set_threshold 2) :
      SimSearch ℕ).option.threshold = 2 ∧
    ¬ ((2 : ℚ) ≤ 1) :=
  ⟨rfl, by decide⟩

/-- C5 (amended): the `threshold` builder and `new_with` perform no
validation at all: any rational (modelling any `f64`) is accepted silently
and stored unchanged, including values outside `[0, 1]`. -/
theorem C5_threshold_stored_verbatim (t : ℚ) :
    (SearchOptions.new.set_threshold t).threshold = t ∧
    (SimSearch.new_with (SearchOptions.new.set_threshold t) :
      SimSearch Id).option.threshold = t :=
  ⟨rfl, rfl⟩

/-- C6: raising the threshold never adds a result.  For a reachable engine
and the same engine with its threshold raised to `t2` (used consistently for
filtering and, in Levenshtein mode, for the cutoff `k`), every identifier
returned at threshold `t2` is also returned at the original threshold. -/
theorem C6_threshold_monotone (e : SimSearch Id) (t2 : ℚ) (h : Reachable e)
    (hle : e.option.threshold ≤ t2) (pats : List String) (l1 l2 : List Id)
    (h1 : e.search_tokens pats = some l1)
    (h2 : SimSearch.search_tokens
      { e with option := e.option.set_threshold t2 } pats = some l2) :
    ∀ x : Id, x ∈ l2 → x ∈ l1 := by
  have hInv := reachable_inv h
  have hInv2 : Inv ({ e with option := e.option.set_threshold t2 } : SimSearch Id) :=
    ⟨hInv.bij, hInv.dom, hInv.fwdRev, hInv.revFwd, hInv.counterBound⟩
  obtain ⟨l1', hs1, _, hm1⟩ := search_tokens_spec e hInv pats
  obtain ⟨l2', hs2, _, hm2⟩ := search_tokens_spec _ hInv2 pats
  rw [h1] at hs1
  injection hs1 with e1eq
  rw [h2] at hs2
  injection hs2 with e2eq
  intro x hx
  rw [e1eq]
  rw [e2eq] at hx
  obtain ⟨n, hrids, tok, s, b, hts, hrev, hnb⟩ := (hm2 x).1 hx
  have htsS := (searchTokenScores_isSome _ pats tok).1 (by rw [hts]; rfl)
  obtain ⟨hvocab, q, hq, hqual⟩ := htsS
  have hq' : q ∈ normTokens e.option pats := hq
  have hqual1 : scoreOf e.option tok q > e.option.threshold :=
    scoreOf_threshold_mono e.option t2 hle tok q hqual
  have hvocab1 : tok ∈ vocabKeys e := hvocab
  have htsS1 : (mlookup (searchTokenScores e pats) tok).isSome :=
    (searchTokenScores_isSome e pats tok).2 ⟨hvocab1, q, hq', hqual1⟩
  cases hts1 : mlookup (searchTokenScores e pats) tok with
  | none =>
    rw [hts1] at htsS1
    cases htsS1
  | some s1 =>
    exact (hm1 x).2 ⟨n, hrids, tok, s1, b, hts1, hrev, hnb⟩

theorem C6_threshold_monotone_witness : (1 : ℕ) ∈ [1] :=
  C6_threshold_monotone levEngine (mkRat 3 5)
    (Reachable.insert_tokens _ 1 ["abcd"] _ (Reachable.new_with levOptions)
      (by decide))
    (by decide) ["abce"] [1] [1] (by decide) (by decide) 1 (by decide)

/-- Modelled from the spec: the edit-distance-mode similarity
`1 − distance/max(len(v), len(q))` over byte strings (with the degenerate
empty-against-empty pair scoring `1`, as the code's `len == 0` guard does). -/
def spec_levSimilarity (v q : String) : ℚ :=
  if ((max (utf8Len v) (utf8Len q) : ℕ) : ℚ) = 0 then 1
  else 1 - (levDist (utf8Bytes v) (utf8Bytes q) : ℚ) /
    ((max (utf8Len v) (utf8Len q) : ℕ) : ℚ)

/-- Modelled from the spec: the cutoff
`k = ceil((1 − threshold) × max(len(v), len(q)))`. -/
def spec_cutoff (t : ℚ) (v q : String) : ℤ :=
  ⌈(1 - t) * ((max (utf8Len v) (utf8Len q) : ℕ) : ℚ)⌉

/-- C8: in edit-distance mode (with the threshold in the spec's `[0, 1]`
range and byte lengths below `u32::MAX`, so the `as u32` cast of the cutoff
is lossless), the similarity of a pair within the cutoff is exactly
`1 − distance/max(len(v), len(q))` over byte strings; a pair whose true
distance exceeds `k = ceil((1 − threshold) × max(len))` is treated as
non-matching (its score cannot beat the threshold); and in both metric
modes a token pair contributes to `token_scores` only when its score is
strictly greater than the threshold. -/
theorem C8_lev_mode_formulas (e : SimSearch Id) (v q : String)
    (hlev : e.option.levenshtein = true)
    (h0 : 0 ≤ e.option.threshold) (h1 : e.option.threshold ≤ 1)
    (hlen : max (utf8Len v) (utf8Len q) ≤ 2 ^ 32 - 1) :
    ((levDist (utf8Bytes v) (utf8Bytes q) : ℤ) ≤
        spec_cutoff e.option.threshold v q →
      scoreOf e.option v q = spec_levSimilarity v q) ∧
    (spec_cutoff e.option.threshold v q <
        (levDist (utf8Bytes v) (utf8Bytes q) : ℤ) →
      ¬ scoreOf e.option v q > e.option.threshold) ∧
    (∀ (e2 : SimSearch Id) (pats : List String) (tok : String),
      (mlookup (searchTokenScores e2 pats) tok).isSome →
      ∃ p ∈ normTokens e2.option pats,
        scoreOf e2.option tok p > e2.option.threshold) := by
  have hLq : (0 : ℚ) ≤ ((max (utf8Len v) (utf8Len q) : ℕ) : ℚ) := by
    exact_mod_cast Nat.zero_le _
  have hcnn : 0 ≤ spec_cutoff e.option.threshold v q := by
    unfold spec_cutoff
    apply Int.ceil_nonneg
    exact mul_nonneg (by linarith) hLq
  have hcle : spec_cutoff e.option.threshold v q ≤
      ((max (utf8Len v) (utf8Len q) : ℕ) : ℤ) := by
    unfold spec_cutoff
    rw [Int.ceil_le]
    have hXX : ((((max (utf8Len v) (utf8Len q) : ℕ) : ℤ)) : ℚ) =
        ((max (utf8Len v) (utf8Len q) : ℕ) : ℚ) := by
      push_cast
      ring
    rw [hXX]
    nlinarith [mul_nonneg h0 hLq]
  have hsat : u32Sat (spec_cutoff e.option.threshold v q) =
      (spec_cutoff e.option.threshold v q).toNat := by
    unfold u32Sat
    rw [max_eq_left hcnn]
    have h3' : (spec_cutoff e.option.threshold v q).toNat ≤
        max (utf8Len v) (utf8Len q) := by omega
    omega
  have hkey : u32Sat ⌈(1 - e.option.threshold) *
      ((max (utf8Len v) (utf8Len q) : ℕ) : ℚ)⌉ =
      (spec_cutoff e.option.threshold v q).toNat := hsat
  have hA : (levDist (utf8Bytes v) (utf8Bytes q) : ℤ) ≤
      spec_cutoff e.option.threshold v q →
      scoreOf e.option v q = spec_levSimilarity v q := by
    intro hd
    rw [scoreOf_lev_eq _ _ _ hlev, hkey]
    have hdle : levDist (utf8Bytes v) (utf8Bytes q) ≤
        (spec_cutoff e.option.threshold v q).toNat := by omega
    rw [if_pos hdle]
    unfold spec_levSimilarity
    by_cases h00 : ((max (utf8Len v) (utf8Len q) : ℕ) : ℚ) = 0
    · rw [if_pos h00, if_pos h00]
      norm_num
    · rw [if_neg h00, if_neg h00]
  have hB : spec_cutoff e.option.threshold v q <
      (levDist (utf8Bytes v) (utf8Bytes q) : ℤ) →
      ¬ scoreOf e.option v q > e.option.threshold := by
    intro hd
    rw [scoreOf_lev_eq _ _ _ hlev, hkey]
    have hdgt : ¬ levDist (utf8Bytes v) (utf8Bytes q) ≤
        (spec_cutoff e.option.threshold v q).toNat := by omega
    rw [if_neg hdgt]
    have := f64MIN_neg
    intro hcontra
    linarith
  exact ⟨hA, hB, fun e2 pats tok hS =>
    ((searchTokenScores_isSome e2 pats tok).1 hS).2⟩

theorem C8_lev_mode_formulas_witness :
    (((levDist (utf8Bytes "abcd") (utf8Bytes "abce") : ℤ) ≤
        spec_cutoff levEngine.option.threshold "abcd" "abce" →
      scoreOf levEngine.option "abcd" "abce" =
        spec_levSimilarity "abcd" "abce") ∧
    (spec_cutoff levEngine.option.threshold "abcd" "abce" <
        (levDist (utf8Bytes "abcd") (utf8Bytes "abce") : ℤ) →
      ¬ scoreOf levEngine.option "abcd" "abce" > levEngine.option.threshold) ∧
    (∀ (e2 : SimSearch ℕ) (pats : List String) (tok : String),
      (mlookup (searchTokenScores e2 pats) tok).isSome →
      ∃ p ∈ normTokens e2.option pats,
        scoreOf e2.option tok p > e2.option.threshold)) :=
  C8_lev_mode_formulas levEngine "abcd" "abce" (by decide) (by decide)
    (by decide) (by decide)

/-- C7 counterexample: `insert(1, "apple")` then `insert(1, "banana")` on a
fresh engine does **not** leave the same state as a fresh engine with only
`insert(1, "banana")`: the slot counter differs (2 vs 1) and the doubly
inserted engine retains an empty reverse-map bucket under the key
`"apple"`. -/
theorem C7_counterexample :
    ((SimSearch.new_with SearchOptions.new : SimSearch ℕ).insert 1 "apple").bind
      (fun e1 => e1.insert 1 "banana") ≠
    (SimSearch.new_with SearchOptions.new : SimSearch ℕ).insert 1 "banana" ∧
    ((SimSearch.new_with SearchOptions.new : SimSearch ℕ).insert 1 "apple").bind
      (fun e1 => e1.insert 1 "banana") =
      some { option := SearchOptions.new
             id_num_counter := 2
             ids_map := [(1, 1)]
             reverse_ids_map := [(1, 1)]
             forward_map := [(1, ["banana"])]
             reverse_map := [("apple", []), ("banana", [1])] } ∧
    (SimSearch.new_with SearchOptions.new : SimSearch ℕ).insert 1 "banana" =
      some { option := SearchOptions.new
             id_num_counter := 1
             ids_map := [(1, 0)]
             reverse_ids_map := [(0, 1)]
             forward_map := [(0, ["banana"])]
             reverse_map := [("banana", [0])] } := by
  refine ⟨?_, by decide, by decide⟩
  decide

/-- C7 (amended): `insert(id, a)` then `insert(id, b)` on a fresh engine
does *not* produce a state identical to a fresh engine with only
`insert(id, b)` — the slot counter differs and empty reverse-map buckets for
`a`'s tokens persist — but the two states are search-equivalent for `id`:
every query returns `id` on one iff it returns it on the other (in both, a
query finds `id` exactly when some token of `b` scores above the threshold
against some query token; a query made only of tokens unique to `a` returns
`id` only if those tokens fuzzily match `b`'s tokens, exactly as on the
fresh engine). -/
theorem C7_reinsert_search_equivalent (opt : SearchOptions) (id : Id)
    (a b : String) (eab eb : SimSearch Id) (pats : List String)
    (lab lb : List Id)
    (hab : ((SimSearch.new_with opt : SimSearch Id).insert id a).bind
      (fun e1 => e1.insert id b) = some eab)
    (hb : (SimSearch.new_with opt : SimSearch Id).insert id b = some eb)
    (hsab : eab.search_tokens pats = some lab)
    (hsb : eb.search_tokens pats = some lb) :
    (id ∈ lab ↔ id ∈ lb) := by
  have hInv0 : Inv (SimSearch.new_with opt : SimSearch Id) := inv_new_with opt
  -- first insert of the chained engine
  obtain ⟨e1, h1, hInv1, hopt1, hcnt1, hids1, _⟩ :=
    insert_tokens_spec (SimSearch.new_with opt) id [a] hInv0
  have h1' : (SimSearch.new_with opt : SimSearch Id).insert id a = some e1 := h1
  rw [h1'] at hab
  have hab' : e1.insert_tokens id [b] = some eab := hab
  -- second insert
  obtain ⟨e2, h2, hInv2, hopt2, hcnt2, hids2, hfwd2⟩ :=
    insert_tokens_spec e1 id [b] hInv1
  rw [hab'] at h2
  injection h2 with h2eq
  -- transport the facts about e2 to eab
  rw [← h2eq] at hInv2 hopt2 hcnt2 hfwd2
  have hids2' : ∀ x, mlookup eab.ids_map x =
      if x = id then some e1.id_num_counter else mlookup e1.ids_map x := by
    intro x
    rw [h2eq]
    exact hids2 x
  have hoptE1 : e1.option = opt := hopt1
  have hidsAB : ∀ (x : Id) (n : Nat),
      mlookup eab.ids_map x = some n ↔ (x = id ∧ n = e1.id_num_counter) := by
    intro x n
    rw [hids2' x]
    by_cases hx : x = id
    · rw [if_pos hx]
      constructor
      · intro hsome
        injection hsome with hs'
        exact ⟨hx, hs'.symm⟩
      · rintro ⟨_, hn⟩
        rw [hn]
    · rw [if_neg hx, hids1 x, if_neg hx]
      constructor
      · intro hnone
        rw [show mlookup (SimSearch.new_with opt : SimSearch Id).ids_map x =
          none from rfl] at hnone
        cases hnone
      · rintro ⟨hx', _⟩
        exact absurd hx' hx
  have hTab : mlookup eab.forward_map e1.id_num_counter =
      some (normTokens opt [b]) := by
    rw [hfwd2, hoptE1]
  have hoptAB : eab.option = opt := by
    rw [hopt2, hoptE1]
  have hmemAB := single_entry_mem eab hInv2 id e1.id_num_counter
    (normTokens opt [b]) hidsAB hTab pats lab hsab
  -- the single-insert engine
  obtain ⟨e3, h3, hInv3, hopt3, hcnt3, hids3, hfwd3⟩ :=
    insert_tokens_spec (SimSearch.new_with opt) id [b] hInv0
  have h3' : (SimSearch.new_with opt : SimSearch Id).insert id b = some e3 := h3
  rw [hb] at h3'
  injection h3' with h3eq
  rw [← h3eq] at hInv3 hopt3 hfwd3
  have hids3' : ∀ x, mlookup eb.ids_map x =
      if x = id then some (SimSearch.new_with opt :
        SimSearch Id).id_num_counter
      else mlookup (SimSearch.new_with opt : SimSearch Id).ids_map x := by
    intro x
    rw [h3eq]
    exact hids3 x
  have hidsB : ∀ (x : Id) (n : Nat),
      mlookup eb.ids_map x = some n ↔
        (x = id ∧ n = (SimSearch.new_with opt : SimSearch Id).id_num_counter) := by
    intro x n
    rw [hids3' x]
    by_cases hx : x = id
    · rw [if_pos hx]
      constructor
      · intro hsome
        injection hsome with hs'
        exact ⟨hx, hs'.symm⟩
      · rintro ⟨_, hn⟩
        rw [hn]
    · rw [if_neg hx]
      constructor
      · intro hnone
        rw [show mlookup (SimSearch.new_with opt : SimSearch Id).ids_map x =
          none from rfl] at hnone
        cases hnone
      · rintro ⟨hx', _⟩
        exact absurd hx' hx
  have hTb : mlookup eb.forward_map
      (SimSearch.new_with opt : SimSearch Id).id_num_counter =
      some (normTokens opt [b]) := by
    rw [hfwd3]
    rfl
  have hoptB : eb.option = opt := by
    rw [hopt3]
    rfl
  have hmemB := single_entry_mem eb hInv3 id _ (normTokens opt [b]) hidsB hTb
    pats lb hsb
  rw [hmemAB, hmemB, hoptAB, hoptB]

/-- The engine obtained from `new()`, `insert(1, "apple")`, then
`insert(1, "banana")`. -/
def sampleReinsert : SimSearch ℕ :=
  { option := SearchOptions.new
    id_num_counter := 2
    ids_map := [(1, 1)]
    reverse_ids_map := [(1, 1)]
    forward_map := [(1, ["banana"])]
    reverse_map := [("apple", []), ("banana", [1])] }

/-- The engine obtained from `new()` and only `insert(1, "banana")`. -/
def sampleBanana : SimSearch ℕ :=
  { option := SearchOptions.new
    id_num_counter := 1
    ids_map := [(1, 0)]
    reverse_ids_map := [(0, 1)]
    forward_map := [(0, ["banana"])]
    reverse_map := [("banana", [0])] }

theorem C7_reinsert_search_equivalent_witness :
    ((1 : ℕ) ∈ ([] : List ℕ) ↔ (1 : ℕ) ∈ ([] : List ℕ)) :=
  C7_reinsert_search_equivalent SearchOptions.new 1 "apple" "banana"
    sampleReinsert sampleBanana ["apple"] [] [] (by decide) (by decide)
    (by decide) (by decide)

end Simsearch
